import Mathlib

/-!
FoamFix Remake (`src/mc/eaglerforge/mods/foam-fix-hope.js`)

A shallow embedding of the mod's two caches and of the functions around them:

* the model deduplication hook on `ModelBakery.bakeModel`, with `getModelSignature`,
  `JSON.stringify`, `Object.fromEntries` and `Array.prototype.join` as the script uses them;
* the per-instance lookup cache on `ClassInheritanceMultiMap` (constructor, `add`, `remove`,
  `getByClass`), where the original host implementations are host code that may call back
  into the hooked methods of the same instance;
* the hooks on `TileEntityHopper.update` and on `Block.getLightValue`.

JavaScript strings are lists of characters, a JavaScript `Map` is an association list in
insertion order, a raised exception is `Except.error` (or `none` where the script catches it).
-/

set_option autoImplicit false

namespace FoamFix

/-! ## JavaScript values used by the script -/

/-- A JavaScript string, as its sequence of characters. -/
abbrev JSString := List Char

/-- A JavaScript `Map`: its entries in insertion order. -/
abbrev JSMap (K V : Type) := List (K × V)

namespace JSMap

variable {K V : Type} [DecidableEq K]

/-- Entry lookup shared by `has` and `get`. -/
def find (m : JSMap K V) (k : K) : Option V :=
  match m with
  | [] => none
  | (k', v) :: rest => if k' = k then some v else find rest k

/-- The method `Map.prototype.has`. -/
def has (m : JSMap K V) (k : K) : Bool := (find m k).isSome

/-- The method `Map.prototype.get`; `default` stands for `undefined` (key not bound). -/
def get [Inhabited V] (m : JSMap K V) (k : K) : V := (find m k).getD default

/-- The method `Map.prototype.set`: rebinds a key in place, or appends a new entry. -/
def set (m : JSMap K V) (k : K) (v : V) : JSMap K V :=
  match m with
  | [] => [(k, v)]
  | (k', v') :: rest => if k' = k then (k, v) :: rest else (k', v') :: set rest k v

/-- The method `Map.prototype.clear`. -/
def clear (_m : JSMap K V) : JSMap K V := []

end JSMap

/-! ## Number and string rendering -/

/-- The decimal digit character of `d` (for `d < 10`). -/
def digitChar (d : Nat) : Char := Char.ofNat (48 + d)

/-- Decimal digits of `n`, most significant first; `fuel` bounds the number of digits. -/
def decimalDigits : Nat → Nat → JSString
  | 0, _ => []
  | fuel + 1, n =>
    if n < 10 then [digitChar n] else decimalDigits fuel (n / 10) ++ [digitChar (n % 10)]

/-- `Number::toString` on a non-negative integer. -/
def natToString (n : Nat) : JSString := decimalDigits (n + 1) n

/-- `Number::toString` on an integer (vertex data are Java `int`s). -/
def intToString : Int → JSString
  | Int.ofNat n => natToString n
  | Int.negSucc n => Char.ofNat 45 :: natToString (n + 1)

/-- `Array.prototype.join` on already converted elements. -/
def joinWith (sep : JSString) : List JSString → JSString
  | [] => []
  | [x] => x
  | x :: y :: rest => x ++ sep ++ joinWith sep (y :: rest)

/-- The call `vertexData.join(',')`. -/
def joinVertexData (data : List Int) : JSString :=
  joinWith [Char.ofNat 44] (data.map intToString)

/-! ## `JSON.stringify` -/

/-- A lowercase hexadecimal digit. -/
def hexDigit (d : Nat) : Char := if d < 10 then Char.ofNat (48 + d) else Char.ofNat (87 + d)

/-- One character inside a JSON string literal (`QuoteJSONString`). -/
def escapeChar (c : Char) : JSString :=
  if c.toNat = 8 then [Char.ofNat 92, Char.ofNat 98]
  else if c.toNat = 9 then [Char.ofNat 92, Char.ofNat 116]
  else if c.toNat = 10 then [Char.ofNat 92, Char.ofNat 110]
  else if c.toNat = 12 then [Char.ofNat 92, Char.ofNat 102]
  else if c.toNat = 13 then [Char.ofNat 92, Char.ofNat 114]
  else if c.toNat = 34 then [Char.ofNat 92, Char.ofNat 34]
  else if c.toNat = 92 then [Char.ofNat 92, Char.ofNat 92]
  else if c.toNat < 32 then
    [Char.ofNat 92, Char.ofNat 117, Char.ofNat 48, Char.ofNat 48,
      hexDigit (c.toNat / 16), hexDigit (c.toNat % 16)]
  else [c]

/-- The characters of a JSON string literal between its quotes. -/
def escapeString : JSString → JSString
  | [] => []
  | c :: cs => escapeChar c ++ escapeString cs

/-- The operation `QuoteJSONString`. -/
def quoteJSON (s : JSString) : JSString :=
  Char.ofNat 34 :: (escapeString s ++ [Char.ofNat 34])

/-- Serialisation of a boolean. -/
def stringifyBool (b : Bool) : JSString := if b then "true".toList else "false".toList

/-- Serialisation of an array of strings. -/
def stringifyStrings (xs : List JSString) : JSString :=
  Char.ofNat 91 :: (joinWith [Char.ofNat 44] (xs.map quoteJSON) ++ [Char.ofNat 93])

/-- One `key:value` member of the `faces` object. -/
def stringifyMember (p : JSString × List JSString) : JSString :=
  quoteJSON p.1 ++ Char.ofNat 58 :: stringifyStrings p.2

/-- Serialisation of an object whose values are arrays of strings, `props` being its
properties in enumeration order. -/
def stringifyMembers (props : List (JSString × List JSString)) : JSString :=
  Char.ofNat 123 :: (joinWith [Char.ofNat 44] (props.map stringifyMember) ++ [Char.ofNat 125])

/-! ## Ordinary objects: `Object.fromEntries` and property enumeration order -/

/-- Value of a string of decimal digits, `none` when some character is not a digit. -/
def parseDigits : JSString → Option Nat
  | [] => some 0
  | c :: cs =>
    if 48 ≤ c.toNat ∧ c.toNat ≤ 57 then
      (parseDigits cs).map (fun rest => (c.toNat - 48) * 10 ^ cs.length + rest)
    else none

/-- The array index a property key denotes: the key is the canonical decimal rendering of an
integer below `2 ^ 32 - 1`. -/
def arrayIndex (k : JSString) : Option Nat :=
  match parseDigits k with
  | some n => if k ≠ [] ∧ natToString n = k ∧ n < 4294967295 then some n else none
  | none => none

/-- The operation `CreateDataProperty` on an ordinary object given by its properties in
creation order: an existing property keeps its place and takes the new value. -/
def defineProperty {V : Type} (o : List (JSString × V)) (k : JSString) (v : V) :
    List (JSString × V) :=
  match o with
  | [] => [(k, v)]
  | (k', v') :: rest => if k' = k then (k, v) :: rest else (k', v') :: defineProperty rest k v

/-- The function `Object.fromEntries`; the result lists the properties in creation order. -/
def fromEntries {V : Type} (entries : List (JSString × V)) : List (JSString × V) :=
  entries.foldl (fun o e => defineProperty o e.1 e.2) []

/-- Order on indexed properties: ascending array index. -/
def indexLE {V : Type} (a b : Nat × (JSString × V)) : Prop := a.1 ≤ b.1

instance {V : Type} : DecidableRel (indexLE (V := V)) := fun a b => Nat.decLe a.1 b.1

/-- The enumeration order of own properties (`OrdinaryOwnPropertyKeys`): array indices in
ascending order, then the other keys in creation order. -/
def ownProperties {V : Type} (o : List (JSString × V)) : List (JSString × V) :=
  ((o.filterMap (fun p => (arrayIndex p.1).map (fun i => (i, p)))).insertionSort indexLE).map
      Prod.snd
    ++ o.filter (fun p => (arrayIndex p.1).isNone)

/-! ## Baked models and `getModelSignature` -/

/-- A baked quad; `none`: the accessor is unavailable or raises. -/
structure BakedQuad where
  getVertexData : Option (List Int)
  deriving DecidableEq, Inhabited

/-- A baked model object: its identity and what its accessors return (`none`: the accessor
is unavailable or raises). Face keys are the property keys the face identifiers convert to. -/
structure BakedModel where
  ref : Nat
  getGeneralQuads : Option (List BakedQuad)
  getFaceQuads : Option (List (JSString × List BakedQuad))
  isAmbientOcclusion : Option Bool
  isGui3d : Option Bool
  isBuiltInRenderer : Option Bool
  deriving DecidableEq, Inhabited

/-- The method `Array.prototype.map` with a callback that may raise: the first exception
aborts the traversal. -/
def arrayMap {α β : Type} (f : α → Option β) : List α → Option (List β)
  | [] => some []
  | x :: xs =>
    match f x with
    | none => none
    | some y =>
      match arrayMap f xs with
      | none => none
      | some ys => some (y :: ys)

/-- The callback `quad => quad.getVertexData().join(',')`. -/
def quadKey (quad : BakedQuad) : Option JSString :=
  match quad.getVertexData with
  | none => none
  | some data => some (joinVertexData data)

/-- The callback `([face, quads]) => [face, quads.map(...)]`. -/
def faceEntry (e : JSString × List BakedQuad) : Option (JSString × List JSString) :=
  match arrayMap quadKey e.2 with
  | none => none
  | some keys => some (e.1, keys)

/-- The object literal `signature` built inside `getModelSignature`. -/
structure Signature where
  general : List JSString
  faces : List (JSString × List JSString)
  ambientOcclusion : Bool
  gui3d : Bool
  builtInRenderer : Bool
  deriving DecidableEq

/-- The call `JSON.stringify(signature)`. -/
def stringifySignature (s : Signature) : JSString :=
  Char.ofNat 123 ::
    (quoteJSON "general".toList ++ Char.ofNat 58 :: stringifyStrings s.general
      ++ Char.ofNat 44 :: quoteJSON "faces".toList
      ++ Char.ofNat 58 :: stringifyMembers (ownProperties s.faces)
      ++ Char.ofNat 44 :: quoteJSON "ambientOcclusion".toList
      ++ Char.ofNat 58 :: stringifyBool s.ambientOcclusion
      ++ Char.ofNat 44 :: quoteJSON "gui3d".toList
      ++ Char.ofNat 58 :: stringifyBool s.gui3d
      ++ Char.ofNat 44 :: quoteJSON "builtInRenderer".toList
      ++ Char.ofNat 58 :: stringifyBool s.builtInRenderer
      ++ [Char.ofNat 125])

/-- The function `getModelSignature`: the JSON key of a model, `none` for the `null` of the
`catch` branch. -/
def getModelSignature (model : BakedModel) : Option JSString :=
  match model.getGeneralQuads with
  | none => none
  | some generalQuads =>
  match arrayMap quadKey generalQuads with
  | none => none
  | some general =>
  match model.getFaceQuads with
  | none => none
  | some faceQuads =>
  match arrayMap faceEntry faceQuads with
  | none => none
  | some entries =>
  match model.isAmbientOcclusion with
  | none => none
  | some ambientOcclusion =>
  match model.isGui3d with
  | none => none
  | some gui3d =>
  match model.isBuiltInRenderer with
  | none => none
  | some builtInRenderer =>
    some (stringifySignature
      { general := general, faces := fromEntries entries,
        ambientOcclusion := ambientOcclusion, gui3d := gui3d,
        builtInRenderer := builtInRenderer })

/-! ## The deduplication hook on `bakeModel` -/

/-- The closure variables `modelCache` and `modelsDeduplicated`. -/
structure BakeState where
  modelCache : JSMap JSString BakedModel
  modelsDeduplicated : Nat
  deriving DecidableEq

/-- The state when the script has just been loaded. -/
def BakeState.initial : BakeState := { modelCache := [], modelsDeduplicated := 0 }

/-- The replacement installed at `ModAPI.hooks.methods[bakeModel]`. -/
def bakeModel {Raw Tr E : Type} (originalBakeModel : Raw → Tr → Except E BakedModel)
    (model : Raw) (transform : Tr) (st : BakeState) : Except E BakedModel × BakeState :=
  match originalBakeModel model transform with
  | .error e => (.error e, st)
  | .ok bakedModel =>
    match getModelSignature bakedModel with
    | none => (.ok bakedModel, st)
    | some signature =>
      if st.modelCache.has signature then
        (.ok (st.modelCache.get signature),
          { st with modelsDeduplicated := st.modelsDeduplicated + 1 })
      else
        (.ok bakedModel, { st with modelCache := st.modelCache.set signature bakedModel })

/-- A sequence of calls to the hooked `bakeModel`: what each call returned, and the final
state. -/
def bakeAll {Raw Tr E : Type} (originalBakeModel : Raw → Tr → Except E BakedModel)
    (st : BakeState) : List (Raw × Tr) → List (Except E BakedModel) × BakeState
  | [] => ([], st)
  | call :: calls =>
    let r := bakeModel originalBakeModel call.1 call.2 st
    let rs := bakeAll originalBakeModel r.2 calls
    (r.1 :: rs.1, rs.2)


/-! ## Sample inputs -/

/-- Model M1 of the specification's scenario: one general quad with vertex data
`0,0,0,1,1`, no faces, all three flags false. -/
def sampleM1 (ref : Nat) : BakedModel :=
  { ref := ref, getGeneralQuads := some [{ getVertexData := some [0, 0, 0, 1, 1] }],
    getFaceQuads := some [], isAmbientOcclusion := some false, isGui3d := some false,
    isBuiltInRenderer := some false }

/-- Model M2 of the scenario: M1 with one vertex datum changed. -/
def sampleM2 (ref : Nat) : BakedModel :=
  { ref := ref, getGeneralQuads := some [{ getVertexData := some [0, 0, 0, 1, 2] }],
    getFaceQuads := some [], isAmbientOcclusion := some false, isGui3d := some false,
    isBuiltInRenderer := some false }

/-- A model whose `getGeneralQuads` raises. -/
def sampleBroken (ref : Nat) : BakedModel :=
  { ref := ref, getGeneralQuads := none, getFaceQuads := some [],
    isAmbientOcclusion := some false, isGui3d := some false, isBuiltInRenderer := some false }

/-- An original `bakeModel` that yields the baked model it is handed. -/
def sampleBake : BakedModel → Unit → Except Unit BakedModel := fun b _ => .ok b

/-! ## The rendering-relevant fields of a model -/

/-- What the accessors of a model hand to `getModelSignature`: the vertex data of the
general quads in order, the face entries in order (key, vertex data of each quad), and the
three flags. -/
structure ModelFields where
  general : List (List Int)
  faces : List (JSString × List (List Int))
  ambientOcclusion : Bool
  gui3d : Bool
  builtInRenderer : Bool
  deriving DecidableEq

/-- The vertex data of a sequence of quads, `none` when some `getVertexData` raises. -/
def quadData (quads : List BakedQuad) : Option (List (List Int)) :=
  arrayMap (fun quad => quad.getVertexData) quads

/-- The vertex data of one face entry. -/
def faceData (e : JSString × List BakedQuad) : Option (JSString × List (List Int)) :=
  match quadData e.2 with
  | none => none
  | some data => some (e.1, data)

/-- The fields of a model, `none` when one of the accessors raises. -/
def readFields (model : BakedModel) : Option ModelFields :=
  match model.getGeneralQuads with
  | none => none
  | some generalQuads =>
  match quadData generalQuads with
  | none => none
  | some general =>
  match model.getFaceQuads with
  | none => none
  | some faceQuads =>
  match arrayMap faceData faceQuads with
  | none => none
  | some faces =>
  match model.isAmbientOcclusion with
  | none => none
  | some ambientOcclusion =>
  match model.isGui3d with
  | none => none
  | some gui3d =>
  match model.isBuiltInRenderer with
  | none => none
  | some builtInRenderer =>
    some { general := general, faces := faces, ambientOcclusion := ambientOcclusion,
           gui3d := gui3d, builtInRenderer := builtInRenderer }

/-- The `faces` object of a model as `JSON.stringify` walks it: `Object.fromEntries` of the
face entries, in property enumeration order. -/
def faceObject (f : ModelFields) : List (JSString × List (List Int)) :=
  ownProperties (fromEntries f.faces)

/-- The `signature` object built from the fields of a model. -/
def signatureOf (f : ModelFields) : Signature :=
  { general := f.general.map joinVertexData,
    faces := fromEntries (f.faces.map (fun e => (e.1, e.2.map joinVertexData))),
    ambientOcclusion := f.ambientOcclusion, gui3d := f.gui3d,
    builtInRenderer := f.builtInRenderer }

/-- A model with no general quads and two face entries, under the keys `1` and `0` in that
order. -/
def sampleFacesA (ref : Nat) : BakedModel :=
  { ref := ref, getGeneralQuads := some [],
    getFaceQuads := some [("1".toList, [{ getVertexData := some [7, 7] }]),
                          ("0".toList, [{ getVertexData := some [9] }])],
    isAmbientOcclusion := some true, isGui3d := some false, isBuiltInRenderer := some false }

/-- The two face entries of `sampleFacesA`, listed in the other order. -/
def sampleFacesB (ref : Nat) : BakedModel :=
  { ref := ref, getGeneralQuads := some [],
    getFaceQuads := some [("0".toList, [{ getVertexData := some [9] }]),
                          ("1".toList, [{ getVertexData := some [7, 7] }])],
    isAmbientOcclusion := some true, isGui3d := some false, isBuiltInRenderer := some false }

/-- A model that lists the face key `up` twice, with different vertex data. -/
def sampleFacesTwice (ref : Nat) : BakedModel :=
  { ref := ref, getGeneralQuads := some [],
    getFaceQuads := some [("up".toList, [{ getVertexData := some [1] }]),
                          ("up".toList, [{ getVertexData := some [3] }])],
    isAmbientOcclusion := some true, isGui3d := some false, isBuiltInRenderer := some false }

/-- A model that lists the face key `up` once, with the second entry of `sampleFacesTwice`. -/
def sampleFacesOnce (ref : Nat) : BakedModel :=
  { ref := ref, getGeneralQuads := some [],
    getFaceQuads := some [("up".toList, [{ getVertexData := some [3] }])],
    isAmbientOcclusion := some true, isGui3d := some false, isBuiltInRenderer := some false }

/-! ## The lookup cache on `ClassInheritanceMultiMap` -/

/-- A collection instance: the host's own state of the collection, and the property
`this[cacheSymbol]` (`none`: the property is absent). -/
structure Instance (σ K V : Type) where
  host : σ
  cache : Option (JSMap K V)

/-- Host code that an original constructor, `add` or `remove` runs on its instance: it reads
and writes the host state, returns or raises, and may call the hooked `getByClass`, `add`
and `remove` of the same instance. A nested `add` or `remove` carries the code that the
original implementation runs for that call; `next` receives what the nested call returned
or raised. -/
inductive HostCode (σ K V E R : Type) : Type where
  | ret (r : R) : HostCode σ K V E R
  | raise (e : E) : HostCode σ K V E R
  | read (next : σ → HostCode σ K V E R) : HostCode σ K V E R
  | write (h : σ) (next : HostCode σ K V E R) : HostCode σ K V E R
  | callGetByClass (classToGet : K) (next : Except E V → HostCode σ K V E R) :
      HostCode σ K V E R
  | callAdd (original : HostCode σ K V E R) (next : Except E R → HostCode σ K V E R) :
      HostCode σ K V E R
  | callRemove (original : HostCode σ K V E R) (next : Except E R → HostCode σ K V E R) :
      HostCode σ K V E R

section Hooks

variable {σ K V E R : Type} [DecidableEq K] [Inhabited V]

/-- The statement `this[cacheSymbol]?.clear()`. -/
def clearCache (this : Instance σ K V) : Instance σ K V :=
  match this.cache with
  | none => this
  | some m => { this with cache := some (JSMap.clear m) }

/-- The replacement installed at `ModAPI.hooks.constructors[CIMM_constructor]`; when the
original constructor raises, the assignment of the cache is not reached. -/
def CIMM_constructor (original_CIMM_constructor : Instance σ K V → Except E R × Instance σ K V)
    (this : Instance σ K V) : Except E Unit × Instance σ K V :=
  match original_CIMM_constructor this with
  | (.error e, this') => (.error e, this')
  | (.ok _, this') => (.ok (), { this' with cache := some [] })

/-- The replacement installed at `ModAPI.hooks.methods[CIMM_add]`. -/
def CIMM_add (original_CIMM_add : Instance σ K V → Except E R × Instance σ K V)
    (this : Instance σ K V) : Except E R × Instance σ K V :=
  original_CIMM_add (clearCache this)

/-- The replacement installed at `ModAPI.hooks.methods[CIMM_remove]`. -/
def CIMM_remove (original_CIMM_remove : Instance σ K V → Except E R × Instance σ K V)
    (this : Instance σ K V) : Except E R × Instance σ K V :=
  original_CIMM_remove (clearCache this)

/-- The replacement installed at `ModAPI.hooks.methods[CIMM_getByClass]`. The original
`getByClass` acts on the host state only. -/
def CIMM_getByClass (original_CIMM_getByClass : K → σ → Except E V × σ)
    (this : Instance σ K V) (classToGet : K) : Except E V × Instance σ K V :=
  match this.cache with
  | some cache =>
    if cache.has classToGet then
      (.ok (cache.get classToGet), this)
    else
      match original_CIMM_getByClass classToGet this.host with
      | (.ok result, host) =>
        (.ok result, { host := host, cache := some (cache.set classToGet result) })
      | (.error e, host) => (.error e, { host := host, cache := some cache })
  | none =>
    match original_CIMM_getByClass classToGet this.host with
    | (r, host) => (r, { host := host, cache := none })

/-- Execution of host code on an instance while the hooks are installed: nested calls go
through the replacements. -/
def HostCode.run (original_CIMM_getByClass : K → σ → Except E V × σ) :
    HostCode σ K V E R → Instance σ K V → Except E R × Instance σ K V
  | .ret r, this => (.ok r, this)
  | .raise e, this => (.error e, this)
  | .read next, this => HostCode.run original_CIMM_getByClass (next this.host) this
  | .write h next, this =>
    HostCode.run original_CIMM_getByClass next { this with host := h }
  | .callGetByClass classToGet next, this =>
    let r := CIMM_getByClass original_CIMM_getByClass this classToGet
    HostCode.run original_CIMM_getByClass (next r.1) r.2
  | .callAdd original next, this =>
    let r := CIMM_add (fun t => HostCode.run original_CIMM_getByClass original t) this
    HostCode.run original_CIMM_getByClass (next r.1) r.2
  | .callRemove original next, this =>
    let r := CIMM_remove (fun t => HostCode.run original_CIMM_getByClass original t) this
    HostCode.run original_CIMM_getByClass (next r.1) r.2

/-- Execution of host code without the hooks: nested calls go to the originals. -/
def HostCode.runOriginal (original_CIMM_getByClass : K → σ → Except E V × σ) :
    HostCode σ K V E R → σ → Except E R × σ
  | .ret r, h => (.ok r, h)
  | .raise e, h => (.error e, h)
  | .read next, h => HostCode.runOriginal original_CIMM_getByClass (next h) h
  | .write h' next, _ => HostCode.runOriginal original_CIMM_getByClass next h'
  | .callGetByClass classToGet next, h =>
    let r := original_CIMM_getByClass classToGet h
    HostCode.runOriginal original_CIMM_getByClass (next r.1) r.2
  | .callAdd original next, h =>
    let r := HostCode.runOriginal original_CIMM_getByClass original h
    HostCode.runOriginal original_CIMM_getByClass (next r.1) r.2
  | .callRemove original next, h =>
    let r := HostCode.runOriginal original_CIMM_getByClass original h
    HostCode.runOriginal original_CIMM_getByClass (next r.1) r.2

end Hooks

/-- The original implementations of the host class. -/
structure Host (σ A K V E R : Type) where
  construct : A → HostCode σ K V E R
  add : A → HostCode σ K V E R
  remove : A → HostCode σ K V E R
  getByClass : K → σ → Except E V × σ

/-- A top-level call on a collection instance. -/
inductive Call (A K : Type) : Type where
  | add (args : A) : Call A K
  | remove (args : A) : Call A K
  | getByClass (classToGet : K) : Call A K

/-- What a call produced: the result of a mutation or of a query, returned or raised. -/
inductive Outcome (V E R : Type) : Type where
  | mutated (r : Except E R) : Outcome V E R
  | queried (r : Except E V) : Outcome V E R

section Calls

variable {σ A K V E R : Type} [DecidableEq K] [Inhabited V]

/-- The expression `new ClassInheritanceMultiMap(...args)` with the hooks installed, on a
fresh object with host state `h0`. -/
def construct (H : Host σ A K V E R) (args : A) (h0 : σ) : Except E Unit × Instance σ K V :=
  CIMM_constructor (fun t => (H.construct args).run H.getByClass t) { host := h0, cache := none }

/-- One top-level call with the hooks installed. -/
def hooked (H : Host σ A K V E R) (c : Call A K) (this : Instance σ K V) :
    Outcome V E R × Instance σ K V :=
  match c with
  | .add args =>
    let r := CIMM_add (fun t => (H.add args).run H.getByClass t) this
    (.mutated r.1, r.2)
  | .remove args =>
    let r := CIMM_remove (fun t => (H.remove args).run H.getByClass t) this
    (.mutated r.1, r.2)
  | .getByClass classToGet =>
    let r := CIMM_getByClass H.getByClass this classToGet
    (.queried r.1, r.2)

/-- A sequence of top-level calls with the hooks installed. -/
def hookedAll (H : Host σ A K V E R) (this : Instance σ K V) :
    List (Call A K) → List (Outcome V E R) × Instance σ K V
  | [] => ([], this)
  | c :: calls =>
    let r := hooked H c this
    let rs := hookedAll H r.2 calls
    (r.1 :: rs.1, rs.2)

/-- One top-level call on the unmodified host. -/
def unhooked (H : Host σ A K V E R) (c : Call A K) (h : σ) : Outcome V E R × σ :=
  match c with
  | .add args =>
    let r := (H.add args).runOriginal H.getByClass h
    (.mutated r.1, r.2)
  | .remove args =>
    let r := (H.remove args).runOriginal H.getByClass h
    (.mutated r.1, r.2)
  | .getByClass classToGet =>
    let r := H.getByClass classToGet h
    (.queried r.1, r.2)

/-- A sequence of top-level calls on the unmodified host. -/
def unhookedAll (H : Host σ A K V E R) (h : σ) :
    List (Call A K) → List (Outcome V E R) × σ
  | [] => ([], h)
  | c :: calls =>
    let r := unhooked H c h
    let rs := unhookedAll H r.2 calls
    (r.1 :: rs.1, rs.2)

end Calls

section HostCodeShapes

variable {σ K V E R : Type}

/-- Host code that never writes the host state, in nested originals included. -/
def HostCode.Quiet : HostCode σ K V E R → Prop
  | .ret _ => True
  | .raise _ => True
  | .read next => ∀ h, HostCode.Quiet (next h)
  | .write _ _ => False
  | .callGetByClass _ next => ∀ r, HostCode.Quiet (next r)
  | .callAdd original next => HostCode.Quiet original ∧ ∀ r, HostCode.Quiet (next r)
  | .callRemove original next => HostCode.Quiet original ∧ ∀ r, HostCode.Quiet (next r)

/-- Host code that has finished writing the host state before its first nested call: after
a nested `getByClass`, `add` or `remove` nothing is written any more (a nested mutation is
itself of this shape). -/
def HostCode.ReadsLast : HostCode σ K V E R → Prop
  | .ret _ => True
  | .raise _ => True
  | .read next => ∀ h, HostCode.ReadsLast (next h)
  | .write _ next => HostCode.ReadsLast next
  | .callGetByClass _ next => ∀ r, HostCode.Quiet (next r)
  | .callAdd original next => HostCode.ReadsLast original ∧ ∀ r, HostCode.Quiet (next r)
  | .callRemove original next => HostCode.ReadsLast original ∧ ∀ r, HostCode.Quiet (next r)

/-- Host code that never calls the hooked `getByClass`, in nested originals included. -/
def HostCode.NoQuery : HostCode σ K V E R → Prop
  | .ret _ => True
  | .raise _ => True
  | .read next => ∀ h, HostCode.NoQuery (next h)
  | .write _ next => HostCode.NoQuery next
  | .callGetByClass _ _ => False
  | .callAdd original next => HostCode.NoQuery original ∧ ∀ r, HostCode.NoQuery (next r)
  | .callRemove original next => HostCode.NoQuery original ∧ ∀ r, HostCode.NoQuery (next r)

/-- Every entry of the attached cache is what the original `getByClass`, here the function
`query` of the host state, returns on the current host state. -/
def Coherent [DecidableEq K] (query : σ → K → Except E V) (this : Instance σ K V) : Prop :=
  ∀ m, this.cache = some m → ∀ k v, JSMap.find m k = some v → query this.host k = .ok v

end HostCodeShapes

/-! ## A sample host class -/

/-- A host collection of numbers whose classes are the residues modulo 2: `getByClass k`
lists the elements of residue `k`, `add` appends, `remove` erases. -/
def sampleHost : Host (List Nat) Nat Nat (List Nat) Unit Bool where
  construct := fun _ => .ret true
  add := fun x => .read (fun h => .write (h ++ [x]) (.ret true))
  remove := fun x => .read (fun h => .write (h.erase x) (.ret (h.contains x)))
  getByClass := fun k h => (.ok (h.filter (fun x => x % 2 = k)), h)

/-- The sample host with an `add` that looks up class `0` through the hooked `getByClass`
before it appends the element. -/
def sampleReentrantHost : Host (List Nat) Nat Nat (List Nat) Unit Bool where
  construct := fun _ => .ret true
  add := fun x => .callGetByClass 0 (fun _ => .read (fun h => .write (h ++ [x]) (.ret true)))
  remove := fun x => .read (fun h => .write (h.erase x) (.ret (h.contains x)))
  getByClass := fun k h => (.ok (h.filter (fun x => x % 2 = k)), h)

/-- An original `getByClass` that raises on every call. -/
def sampleRaisingGetByClass : Nat → List Nat → Except Unit (List Nat) × List Nat :=
  fun _ h => (.error (), h)

/-- The original `getByClass` of the sample hosts as a function of the contents. -/
def sampleQuery : List Nat → Nat → Except Unit (List Nat) :=
  fun h k => .ok (h.filter (fun x => x % 2 = k))

/-! ## Counting the calls of a run of `bakeModel` -/

/-- The call returned a model that the store already held before the call. -/
def returnedStored {E : Type} (st : BakeState) (r : Except E BakedModel) : Bool :=
  match r with
  | .ok a => st.modelCache.any (fun e => decide (e.2 = a))
  | .error _ => false

/-- The number of calls, in a run that starts in `st`, that returned a model the store
already held before the call. -/
def countReturnedStored {Raw Tr E : Type} (originalBakeModel : Raw → Tr → Except E BakedModel)
    (st : BakeState) : List (Raw × Tr) → Nat
  | [] => 0
  | call :: calls =>
    let r := bakeModel originalBakeModel call.1 call.2 st
    (if returnedStored st r.1 then 1 else 0) + countReturnedStored originalBakeModel r.2 calls

/-- The number of calls whose baked model has a non-null signature. -/
def countSigned {Raw Tr E : Type} (originalBakeModel : Raw → Tr → Except E BakedModel) :
    List (Raw × Tr) → Nat
  | [] => 0
  | call :: calls =>
    (match originalBakeModel call.1 call.2 with
      | .ok b => if (getModelSignature b).isSome then 1 else 0
      | .error _ => 0)
      + countSigned originalBakeModel calls

/-- An original `bakeModel` that raises on every call. -/
def sampleFailingBake : BakedModel → Unit → Except Unit BakedModel := fun _ _ => .error ()

/-- Every entry of the store binds a signature to a model that has this signature. -/
def StoreSound (st : BakeState) : Prop :=
  ∀ s a, (s, a) ∈ st.modelCache → getModelSignature a = some s

/-! ## Accessors that raise -/

/-- Some quad of the sequence has a `getVertexData` that is unavailable or raises. -/
def quadsRaise (quads : List BakedQuad) : Bool :=
  quads.any (fun quad => quad.getVertexData.isNone)

/-- One of the accessors that `getModelSignature` requires is unavailable or raises:
`getGeneralQuads`, `getVertexData` of a general quad, `getFaceQuads`, `getVertexData` of a
quad of a face entry, `isAmbientOcclusion`, `isGui3d` or `isBuiltInRenderer`. -/
def accessorRaises (model : BakedModel) : Bool :=
  (match model.getGeneralQuads with
    | none => true
    | some generalQuads => quadsRaise generalQuads)
  || (match model.getFaceQuads with
    | none => true
    | some faceQuads => faceQuads.any (fun e => quadsRaise e.2))
  || model.isAmbientOcclusion.isNone || model.isGui3d.isNone
  || model.isBuiltInRenderer.isNone

/-- A model one of whose face quads has a `getVertexData` that raises. -/
def sampleBrokenQuad (ref : Nat) : BakedModel :=
  { ref := ref, getGeneralQuads := some [{ getVertexData := some [1] }],
    getFaceQuads :=
      some [("up".toList, [{ getVertexData := some [2] }, { getVertexData := none }])],
    isAmbientOcclusion := some false, isGui3d := some false, isBuiltInRenderer := some false }

/-! ## Nested lookups of a mutation -/

section Lookups

variable {σ K V E R : Type} [DecidableEq K] [Inhabited V]

/-- Whether a hooked `getByClass(classToGet)` on this instance takes the branch that returns
the memoized value, that is, whether `cache?.has(classToGet)` holds. -/
def servedFromCache (this : Instance σ K V) (classToGet : K) : Bool :=
  match this.cache with
  | some cache => cache.has classToGet
  | none => false

/-- The nested calls of the hooked `getByClass` that host code makes while it runs on an
instance, in order: the key of each call and whether the call was served from the cache. -/
def HostCode.lookups (original_CIMM_getByClass : K → σ → Except E V × σ) :
    HostCode σ K V E R → Instance σ K V → List (K × Bool)
  | .ret _, _ => []
  | .raise _, _ => []
  | .read next, this => HostCode.lookups original_CIMM_getByClass (next this.host) this
  | .write h next, this =>
    HostCode.lookups original_CIMM_getByClass next { this with host := h }
  | .callGetByClass classToGet next, this =>
    let r := CIMM_getByClass original_CIMM_getByClass this classToGet
    (classToGet, servedFromCache this classToGet)
      :: HostCode.lookups original_CIMM_getByClass (next r.1) r.2
  | .callAdd original next, this =>
    let r := CIMM_add (fun t => HostCode.run original_CIMM_getByClass original t) this
    HostCode.lookups original_CIMM_getByClass original (clearCache this)
      ++ HostCode.lookups original_CIMM_getByClass (next r.1) r.2
  | .callRemove original next, this =>
    let r := CIMM_remove (fun t => HostCode.run original_CIMM_getByClass original t) this
    HostCode.lookups original_CIMM_getByClass original (clearCache this)
      ++ HostCode.lookups original_CIMM_getByClass (next r.1) r.2

end Lookups

/-- Host code of an original `add` that looks up class 0 twice, appends the element and
looks up class 0 again. -/
def sampleLookingAdd (x : Nat) : HostCode (List Nat) Nat (List Nat) Unit Bool :=
  .callGetByClass 0 (fun _ => .callGetByClass 0 (fun _ =>
    .read (fun h => .write (h ++ [x]) (.callGetByClass 0 (fun _ => .ret true)))))

/-- Host code of an original constructor that adds an element through the hooked `add` and
looks up class 1 through the hooked `getByClass`. -/
def sampleBusyConstructor : HostCode (List Nat) Nat (List Nat) Unit Bool :=
  .callAdd (.write [1] (.ret true)) (fun _ => .callGetByClass 1 (fun _ => .ret true))

/-- Host code of an original mutation that writes and then raises. -/
def sampleFailingAdd (x : Nat) : HostCode (List Nat) Nat (List Nat) Unit Bool :=
  .read (fun h => .write (h ++ [x]) (.raise ()))

/-! ## The hopper hook -/

/-- A hopper tile entity: the field `transferCooldown` and the rest of its state. -/
structure Hopper (σ : Type) where
  transferCooldown : Int
  host : σ

/-- The replacement installed at `ModAPI.hooks.methods[updateHopper]`. -/
def updateHopper {σ : Type} (originalUpdateHopper : Hopper σ → Hopper σ) (this : Hopper σ) :
    Hopper σ :=
  if this.transferCooldown > 0 then
    { this with transferCooldown := this.transferCooldown - 1 }
  else
    originalUpdateHopper { this with transferCooldown := 8 }

/-- The state after `n` calls of the hooked update in a row. -/
def updateHopperTimes {σ : Type} (originalUpdateHopper : Hopper σ → Hopper σ) :
    Nat → Hopper σ → Hopper σ
  | 0, this => this
  | n + 1, this =>
    updateHopper originalUpdateHopper (updateHopperTimes originalUpdateHopper n this)

/-- An original update that counts its runs in the rest of the state. -/
def sampleOriginalUpdate (this : Hopper Nat) : Hopper Nat :=
  { this with host := this.host + 1 }

/-! ## The light hook -/

/-- A block state as the hook reads it: the unlocalized name of its block, its metadata,
and the rest of the state. -/
structure BlockState (σ : Type) where
  unlocalizedName : JSString
  metadata : Nat
  host : σ

/-- The replacement installed at `ModAPI.hooks.methods[getLightValue]`. -/
def getLightValue {σ : Type} (originalGetLightValue : BlockState σ → Int)
    (state : BlockState σ) : Int :=
  let blockName := state.unlocalizedName
  if blockName = "tile.torch".toList ∨ blockName = "tile.repeater".toList
      ∨ blockName = "tile.comparator".toList then
    let blockState := state.metadata
    if (blockName = "tile.torch".toList ∧ blockState = 5)
        ∨ (blockName ≠ "tile.torch".toList ∧ blockState &&& 8 ≠ 0) then
      0
    else originalGetLightValue state
  else originalGetLightValue state

/-- An original `getLightValue` that returns 15 for every state. -/
def sampleOriginalLight : BlockState Unit → Int := fun _ => 15

/-! ## Lemmas on `Map` -/

namespace JSMap

variable {K V : Type} [DecidableEq K]

theorem find_set_self (m : JSMap K V) (k : K) (v : V) : find (set m k v) k = some v := by
  induction m with
  | nil => simp [set, find]
  | cons p rest ih =>
    obtain ⟨k', v'⟩ := p
    by_cases h : k' = k
    · simp [set, find, h]
    · simp [set, find, h, ih]

theorem find_set_other (m : JSMap K V) (k k' : K) (v : V) (h : k ≠ k') :
    find (set m k v) k' = find m k' := by
  induction m with
  | nil => simp [set, find, h]
  | cons p rest ih =>
    obtain ⟨k0, v0⟩ := p
    by_cases h0 : k0 = k
    · subst h0
      simp [set, find, h]
    · by_cases h1 : k0 = k'
      · subst h1
        simp [set, find, h0]
      · simp [set, find, h0, h1, ih]

theorem has_eq_true_iff (m : JSMap K V) (k : K) : has m k = true ↔ ∃ v, find m k = some v := by
  simp [has, Option.isSome_iff_exists]

theorem has_eq_false_iff (m : JSMap K V) (k : K) : has m k = false ↔ find m k = none := by
  cases h : find m k <;> simp [has, h]

theorem get_of_find [Inhabited V] (m : JSMap K V) (k : K) (v : V) (h : find m k = some v) :
    get m k = v := by
  simp [get, h]

end JSMap

/-! ## Lemmas on the deduplication hook -/

section Bake

variable {Raw Tr E : Type}

/-- A call whose baked model has signature `s`, with `s` already bound: the stored model is
returned and the counter goes up by one. -/
theorem bakeModel_hit (orig : Raw → Tr → Except E BakedModel) (model : Raw) (transform : Tr)
    (st : BakeState) (b r : BakedModel) (s : JSString) (hb : orig model transform = .ok b)
    (hs : getModelSignature b = some s) (hr : st.modelCache.find s = some r) :
    bakeModel orig model transform st
      = (.ok r, { st with modelsDeduplicated := st.modelsDeduplicated + 1 }) := by
  have hhas : st.modelCache.has s = true := (JSMap.has_eq_true_iff _ _).2 ⟨r, hr⟩
  simp [bakeModel, hb, hs, hhas, JSMap.get_of_find _ _ _ hr]

/-- A call whose baked model has signature `s`, with `s` not yet bound: the baked model is
stored and returned. -/
theorem bakeModel_miss (orig : Raw → Tr → Except E BakedModel) (model : Raw) (transform : Tr)
    (st : BakeState) (b : BakedModel) (s : JSString) (hb : orig model transform = .ok b)
    (hs : getModelSignature b = some s) (hr : st.modelCache.find s = none) :
    bakeModel orig model transform st
      = (.ok b, { st with modelCache := st.modelCache.set s b }) := by
  have hhas : st.modelCache.has s = false := (JSMap.has_eq_false_iff _ _).2 hr
  simp [bakeModel, hb, hs, hhas]

/-- A call whose baked model has no signature leaves the state alone. -/
theorem bakeModel_null (orig : Raw → Tr → Except E BakedModel) (model : Raw) (transform : Tr)
    (st : BakeState) (b : BakedModel) (hb : orig model transform = .ok b)
    (hs : getModelSignature b = none) :
    bakeModel orig model transform st = (.ok b, st) := by
  simp [bakeModel, hb, hs]

/-- A binding of the store survives every call unchanged. -/
theorem bakeModel_keeps (orig : Raw → Tr → Except E BakedModel) (model : Raw) (transform : Tr)
    (st : BakeState) (s : JSString) (r : BakedModel) (hr : st.modelCache.find s = some r) :
    (bakeModel orig model transform st).2.modelCache.find s = some r := by
  cases hb : orig model transform with
  | error e => simpa [bakeModel, hb] using hr
  | ok b =>
    cases hs : getModelSignature b with
    | none => simpa [bakeModel, hb, hs] using hr
    | some s' =>
      by_cases hhas : st.modelCache.has s' = true
      · simpa [bakeModel, hb, hs, hhas] using hr
      · have hne : s' ≠ s := by
          intro h
          subst h
          exact hhas ((JSMap.has_eq_true_iff _ _).2 ⟨r, hr⟩)
        simp [bakeModel, hb, hs, hhas, JSMap.find_set_other _ _ _ _ hne, hr]

/-- After a call whose baked model has signature `s`, the returned model is bound to `s`. -/
theorem bakeModel_binds (orig : Raw → Tr → Except E BakedModel) (model : Raw) (transform : Tr)
    (st : BakeState) (b : BakedModel) (s : JSString) (hb : orig model transform = .ok b)
    (hs : getModelSignature b = some s) :
    ∃ r, (bakeModel orig model transform st).1 = .ok r
      ∧ (bakeModel orig model transform st).2.modelCache.find s = some r := by
  cases hr : st.modelCache.find s with
  | none =>
    refine ⟨b, ?_, ?_⟩
    · rw [bakeModel_miss orig model transform st b s hb hs hr]
    · rw [bakeModel_miss orig model transform st b s hb hs hr]
      exact JSMap.find_set_self _ _ _
  | some r =>
    refine ⟨r, ?_, ?_⟩
    · rw [bakeModel_hit orig model transform st b r s hb hs hr]
    · rw [bakeModel_hit orig model transform st b r s hb hs hr]
      exact hr

/-- Once `s` is bound to `r`, every later call whose baked model has signature `s`
returns `r`. -/
theorem bakeAll_bound (orig : Raw → Tr → Except E BakedModel) (calls : List (Raw × Tr)) :
    ∀ (st : BakeState) (j : Nat) (cj : Raw × Tr) (bj r : BakedModel) (s : JSString),
      st.modelCache.find s = some r → calls[j]? = some cj → orig cj.1 cj.2 = .ok bj →
      getModelSignature bj = some s → (bakeAll orig st calls).1[j]? = some (.ok r) := by
  induction calls with
  | nil => intro st j cj bj r s _ hcj; simp at hcj
  | cons c rest ih =>
    intro st j cj bj r s hr hcj hbj hsj
    cases j with
    | zero =>
      simp only [List.getElem?_cons_zero, Option.some.injEq] at hcj
      subst hcj
      simp [bakeAll, bakeModel_hit orig c.1 c.2 st bj r s hbj hsj hr]
    | succ j =>
      simp only [List.getElem?_cons_succ] at hcj
      simpa [bakeAll] using
        ih _ j cj bj r s (bakeModel_keeps orig c.1 c.2 st s r hr) hcj hbj hsj

end Bake

/-! ## Properties of the deduplication hook -/

/-- C1: in every sequence of calls to the hooked `bakeModel`, from any state of the store
and the counter, two calls `i < j` whose freshly baked models have the same non-null
signature return the identical model, whatever is baked in between. -/
theorem bake_equal_signature_same_reference {Raw Tr E : Type}
    (orig : Raw → Tr → Except E BakedModel) (calls : List (Raw × Tr)) :
    ∀ (st : BakeState) (i j : Nat) (ci cj : Raw × Tr) (bi bj : BakedModel) (s : JSString),
      i < j → calls[i]? = some ci → calls[j]? = some cj →
      orig ci.1 ci.2 = .ok bi → orig cj.1 cj.2 = .ok bj →
      getModelSignature bi = some s → getModelSignature bj = some s →
      ∃ r, (bakeAll orig st calls).1[i]? = some (.ok r)
        ∧ (bakeAll orig st calls).1[j]? = some (.ok r) := by
  induction calls with
  | nil => intro st i j ci cj bi bj s _ hci; simp at hci
  | cons c rest ih =>
    intro st i j ci cj bi bj s hij hci hcj hbi hbj hsi hsj
    obtain ⟨j, rfl⟩ : ∃ j', j = j' + 1 := ⟨j - 1, by omega⟩
    simp only [List.getElem?_cons_succ] at hcj
    cases i with
    | zero =>
      simp only [List.getElem?_cons_zero, Option.some.injEq] at hci
      subst hci
      obtain ⟨r, hr1, hr2⟩ := bakeModel_binds orig c.1 c.2 st bi s hbi hsi
      refine ⟨r, by simp [bakeAll, hr1], ?_⟩
      simpa [bakeAll] using bakeAll_bound orig rest _ j cj bj r s hr2 hcj hbj hsj
    | succ i =>
      simp only [List.getElem?_cons_succ] at hci
      obtain ⟨r, h1, h2⟩ := ih (bakeModel orig c.1 c.2 st).2 i j ci cj bi bj s
        (by omega) hci hcj hbi hbj hsi hsj
      exact ⟨r, by simpa [bakeAll] using h1, by simpa [bakeAll] using h2⟩

/-- Witness for C1: M1, M2, M1 are baked in turn; calls 0 and 2 return the same model. -/
theorem bake_equal_signature_same_reference_witness :
    ∃ r, (bakeAll sampleBake BakeState.initial
            [(sampleM1 1, ()), (sampleM2 2, ()), (sampleM1 3, ())]).1[0]? = some (.ok r)
      ∧ (bakeAll sampleBake BakeState.initial
            [(sampleM1 1, ()), (sampleM2 2, ()), (sampleM1 3, ())]).1[2]? = some (.ok r) :=
  bake_equal_signature_same_reference sampleBake
    [(sampleM1 1, ()), (sampleM2 2, ()), (sampleM1 3, ())] BakeState.initial 0 2
    (sampleM1 1, ()) (sampleM1 3, ()) (sampleM1 1) (sampleM1 3)
    ((getModelSignature (sampleM1 1)).getD []) (by decide) rfl rfl rfl rfl (by decide)
    (by decide)

section Bake

variable {Raw Tr E : Type}

/-- With `s` bound to `r`, a run of calls that all bake signature `s` returns `r` every time,
counts each call and leaves the store alone. -/
theorem bakeAll_all_hits (orig : Raw → Tr → Except E BakedModel) (s : JSString)
    (r : BakedModel) (calls : List (Raw × Tr)) :
    ∀ (st : BakeState), st.modelCache.find s = some r →
      (∀ c ∈ calls, ∃ b, orig c.1 c.2 = .ok b ∧ getModelSignature b = some s) →
      bakeAll orig st calls
        = (List.replicate calls.length (.ok r),
            { st with modelsDeduplicated := st.modelsDeduplicated + calls.length }) := by
  induction calls with
  | nil => intro st _ _; simp [bakeAll]
  | cons c rest ih =>
    intro st hr hall
    obtain ⟨b, hb, hs⟩ := hall c (List.mem_cons_self _ _)
    have hstep := bakeModel_hit orig c.1 c.2 st b r s hb hs hr
    have hrest := ih { st with modelsDeduplicated := st.modelsDeduplicated + 1 } hr
      (fun c' hc' => hall c' (List.mem_cons_of_mem _ hc'))
    simp only [bakeAll, hstep, hrest, List.length_cons, List.replicate_succ]
    simp [Nat.add_assoc, Nat.add_comm 1]

end Bake

/-- C7: `N ≥ 1` calls whose baked models all carry one non-null signature that is not yet a
key of the store: every call returns the model baked by call 1 (so calls 2..N return the
reference call 1 returned), and the counter goes up by exactly `N - 1`. -/
theorem bake_repeated_artifact {Raw Tr E : Type} (orig : Raw → Tr → Except E BakedModel)
    (st : BakeState) (s : JSString) (c : Raw × Tr) (rest : List (Raw × Tr))
    (first : BakedModel) (hfresh : st.modelCache.has s = false)
    (hfirst : orig c.1 c.2 = .ok first) (hsig : getModelSignature first = some s)
    (hall : ∀ c' ∈ rest, ∃ b, orig c'.1 c'.2 = .ok b ∧ getModelSignature b = some s) :
    (bakeAll orig st (c :: rest)).1 = List.replicate (c :: rest).length (.ok first)
      ∧ (bakeAll orig st (c :: rest)).2.modelsDeduplicated
          = st.modelsDeduplicated + ((c :: rest).length - 1) := by
  have hnone : st.modelCache.find s = none := (JSMap.has_eq_false_iff _ _).1 hfresh
  have hstep := bakeModel_miss orig c.1 c.2 st first s hfirst hsig hnone
  have hrest := bakeAll_all_hits orig s first rest
    { st with modelCache := st.modelCache.set s first } (JSMap.find_set_self _ _ _) hall
  simp [bakeAll, hstep, hrest, List.replicate_succ]

/-- Witness for C7: M1 baked three times from the initial state. -/
theorem bake_repeated_artifact_witness :
    (bakeAll sampleBake BakeState.initial
        [(sampleM1 1, ()), (sampleM1 2, ()), (sampleM1 3, ())]).1
      = List.replicate 3 (.ok (sampleM1 1))
    ∧ (bakeAll sampleBake BakeState.initial
        [(sampleM1 1, ()), (sampleM1 2, ()), (sampleM1 3, ())]).2.modelsDeduplicated
      = 0 + (3 - 1) :=
  bake_repeated_artifact sampleBake BakeState.initial
    ((getModelSignature (sampleM1 1)).getD []) (sampleM1 1, ())
    [(sampleM1 2, ()), (sampleM1 3, ())] (sampleM1 1) (by decide) rfl (by decide)
    (by
      intro c' hc'
      simp only [List.mem_cons, List.mem_singleton, List.not_mem_nil, or_false] at hc'
      rcases hc' with rfl | rfl
      · exact ⟨sampleM1 2, rfl, by decide⟩
      · exact ⟨sampleM1 3, rfl, by decide⟩)

/-- C9: a call whose baked model has no signature (`getModelSignature` yields `null`)
returns that baked model itself and changes neither the store nor the counter; two such
calls in a row each return their own baked model. -/
theorem bake_not_canonicalizable {Raw Tr E : Type} (orig : Raw → Tr → Except E BakedModel)
    (st : BakeState) (c1 c2 : Raw × Tr) (b1 b2 : BakedModel)
    (h1 : orig c1.1 c1.2 = .ok b1) (h2 : orig c2.1 c2.2 = .ok b2)
    (hs1 : getModelSignature b1 = none) (hs2 : getModelSignature b2 = none) :
    bakeModel orig c1.1 c1.2 st = (.ok b1, st)
      ∧ bakeAll orig st [c1, c2] = ([.ok b1, .ok b2], st) := by
  have e1 := bakeModel_null orig c1.1 c1.2 st b1 h1 hs1
  have e2 := bakeModel_null orig c2.1 c2.2 st b2 h2 hs2
  exact ⟨e1, by simp [bakeAll, e1, e2]⟩

/-- Witness for C9: two models whose `getGeneralQuads` raises, baked into a store that
already holds M1. -/
theorem bake_not_canonicalizable_witness :
    bakeModel sampleBake (sampleBroken 5) ()
        (bakeModel sampleBake (sampleM1 1) () BakeState.initial).2
      = (.ok (sampleBroken 5), (bakeModel sampleBake (sampleM1 1) () BakeState.initial).2)
    ∧ bakeAll sampleBake (bakeModel sampleBake (sampleM1 1) () BakeState.initial).2
        [(sampleBroken 5, ()), (sampleBroken 6, ())]
      = ([.ok (sampleBroken 5), .ok (sampleBroken 6)],
          (bakeModel sampleBake (sampleM1 1) () BakeState.initial).2) :=
  bake_not_canonicalizable sampleBake _ (sampleBroken 5, ()) (sampleBroken 6, ())
    (sampleBroken 5) (sampleBroken 6) rfl rfl rfl rfl

/-! ## Number rendering is injective -/

theorem digitChar_toNat (d : Nat) (h : d < 10) : (digitChar d).toNat = 48 + d := by
  revert d
  decide

theorem digitChar_injective (a b : Nat) (ha : a < 10) (hb : b < 10)
    (h : digitChar a = digitChar b) : a = b := by
  have h1 := digitChar_toNat a ha
  have h2 := digitChar_toNat b hb
  rw [h] at h1
  omega

theorem decimalDigits_ne_nil (fuel n : Nat) : decimalDigits (fuel + 1) n ≠ [] := by
  unfold decimalDigits
  split <;> simp

theorem decimalDigits_digits (fuel n : Nat) :
    ∀ c ∈ decimalDigits fuel n, 48 ≤ c.toNat ∧ c.toNat ≤ 57 := by
  induction fuel generalizing n with
  | zero => intro c hc; simp [decimalDigits] at hc
  | succ fuel ih =>
    intro c hc
    unfold decimalDigits at hc
    split at hc
    · rename_i hlt
      simp only [List.mem_singleton] at hc
      subst hc
      have := digitChar_toNat n hlt
      omega
    · simp only [List.mem_append, List.mem_singleton] at hc
      rcases hc with hc | hc
      · exact ih _ c hc
      · subst hc
        have := digitChar_toNat (n % 10) (Nat.mod_lt _ (by decide))
        omega

theorem decimalDigits_injective (fuel1 : Nat) :
    ∀ (fuel2 a b : Nat), a < fuel1 → b < fuel2 →
      decimalDigits fuel1 a = decimalDigits fuel2 b → a = b := by
  induction fuel1 with
  | zero => intro fuel2 a b ha; omega
  | succ f1 ih =>
    intro fuel2 a b ha hb h
    obtain ⟨f2, rfl⟩ : ∃ f2, fuel2 = f2 + 1 := ⟨fuel2 - 1, by omega⟩
    unfold decimalDigits at h
    by_cases h1 : a < 10 <;> by_cases h2 : b < 10
    · simp only [h1, h2, if_true, List.cons.injEq, and_true] at h
      exact digitChar_injective a b h1 h2 h
    · simp only [h1, h2, if_true, if_false] at h
      obtain ⟨f3, rfl⟩ : ∃ f3, f2 = f3 + 1 := ⟨f2 - 1, by omega⟩
      have hne := decimalDigits_ne_nil f3 (b / 10)
      have hlen := congrArg List.length h
      simp only [List.length_singleton, List.length_append] at hlen
      have : (decimalDigits (f3 + 1) (b / 10)).length ≠ 0 := by
        simpa [List.length_eq_zero] using hne
      omega
    · simp only [h1, h2, if_true, if_false] at h
      obtain ⟨f3, rfl⟩ : ∃ f3, f1 = f3 + 1 := ⟨f1 - 1, by omega⟩
      have hne := decimalDigits_ne_nil f3 (a / 10)
      have hlen := congrArg List.length h
      simp only [List.length_singleton, List.length_append] at hlen
      have : (decimalDigits (f3 + 1) (a / 10)).length ≠ 0 := by
        simpa [List.length_eq_zero] using hne
      omega
    · simp only [h1, h2, if_false] at h
      have hsplit := List.append_inj' h rfl
      have hd : digitChar (a % 10) = digitChar (b % 10) := by simpa using hsplit.2
      have hmod := digitChar_injective _ _ (Nat.mod_lt _ (by decide)) (Nat.mod_lt _ (by decide)) hd
      have hdiv := ih f2 (a / 10) (b / 10) (by omega) (by omega) hsplit.1
      omega

theorem natToString_injective (a b : Nat) (h : natToString a = natToString b) : a = b :=
  decimalDigits_injective (a + 1) (b + 1) a b (by omega) (by omega) h

theorem natToString_ne_nil (n : Nat) : natToString n ≠ [] := decimalDigits_ne_nil n n

theorem natToString_digits (n : Nat) : ∀ c ∈ natToString n, 48 ≤ c.toNat ∧ c.toNat ≤ 57 :=
  decimalDigits_digits (n + 1) n

theorem intToString_injective (a b : Int) (h : intToString a = intToString b) : a = b := by
  cases a with
  | ofNat a =>
    cases b with
    | ofNat b =>
      have := natToString_injective a b h
      subst this
      rfl
    | negSucc b =>
      exfalso
      have hm : Char.ofNat 45 ∈ natToString a := by
        have : natToString a = Char.ofNat 45 :: natToString (b + 1) := h
        rw [this]
        exact List.mem_cons_self _ _
      have := natToString_digits a _ hm
      simp at this
  | negSucc a =>
    cases b with
    | ofNat b =>
      exfalso
      have hm : Char.ofNat 45 ∈ natToString b := by
        have : Char.ofNat 45 :: natToString (a + 1) = natToString b := h
        rw [← this]
        exact List.mem_cons_self _ _
      have := natToString_digits b _ hm
      simp at this
    | negSucc b =>
      have h' : Char.ofNat 45 :: natToString (a + 1) = Char.ofNat 45 :: natToString (b + 1) := h
      have := natToString_injective _ _ (List.cons.inj h').2
      have : a = b := by omega
      subst this
      rfl

theorem intToString_ne_nil (a : Int) : intToString a ≠ [] := by
  cases a with
  | ofNat a => exact natToString_ne_nil a
  | negSucc a => simp [intToString]

theorem intToString_no_comma (a : Int) : Char.ofNat 44 ∉ intToString a := by
  cases a with
  | ofNat a =>
    intro hm
    have := natToString_digits a _ hm
    simp at this
  | negSucc a =>
    intro hm
    simp only [intToString, List.mem_cons] at hm
    rcases hm with hm | hm
    · simp at hm
    · have := natToString_digits _ _ hm
      simp at this

/-! ## `join` is injective on vertex data -/

theorem joinWith_cons_cons (sep x y : JSString) (rest : List JSString) :
    joinWith sep (x :: y :: rest) = x ++ sep ++ joinWith sep (y :: rest) := rfl

/-- Two strings free of `sep`, each followed by `sep`: the first `sep` splits uniquely. -/
theorem append_sep_inj (sep : Char) (x1 : JSString) :
    ∀ (x2 z1 z2 : JSString), sep ∉ x1 → sep ∉ x2 →
      x1 ++ sep :: z1 = x2 ++ sep :: z2 → x1 = x2 ∧ z1 = z2 := by
  induction x1 with
  | nil =>
    intro x2 z1 z2 _ h2 h
    cases x2 with
    | nil => simpa using h
    | cons b x2 =>
      exfalso
      simp only [List.nil_append, List.cons_append, List.cons.injEq] at h
      exact h2 (by simp [h.1])
  | cons a x1 ih =>
    intro x2 z1 z2 h1 h2 h
    cases x2 with
    | nil =>
      exfalso
      simp only [List.nil_append, List.cons_append, List.cons.injEq] at h
      exact h1 (by simp [h.1])
    | cons b x2 =>
      simp only [List.cons_append, List.cons.injEq] at h
      have := ih x2 z1 z2 (fun hm => h1 (List.mem_cons_of_mem _ hm))
        (fun hm => h2 (List.mem_cons_of_mem _ hm)) h.2
      exact ⟨by rw [h.1, this.1], this.2⟩

/-- Joining with a separator character is injective on non-empty pieces free of it. -/
theorem joinWith_injective (sep : Char) (xs : List JSString) :
    ∀ (ys : List JSString), (∀ x ∈ xs, x ≠ [] ∧ sep ∉ x) →
      (∀ y ∈ ys, y ≠ [] ∧ sep ∉ y) →
      joinWith [sep] xs = joinWith [sep] ys → xs = ys := by
  induction xs with
  | nil =>
    intro ys _ hy h
    cases ys with
    | nil => rfl
    | cons y ys =>
      exfalso
      have hy1 := (hy y (List.mem_cons_self _ _)).1
      cases ys with
      | nil => exact hy1 (by simpa [joinWith] using h.symm)
      | cons y' ys => simp [joinWith, hy1] at h
  | cons x xs ih =>
    intro ys hx hy h
    have hx1 := hx x (List.mem_cons_self _ _)
    cases ys with
    | nil =>
      exfalso
      cases xs with
      | nil => exact hx1.1 (by simpa [joinWith] using h)
      | cons x' xs => simp [joinWith, hx1.1] at h
    | cons y ys =>
      have hy1 := hy y (List.mem_cons_self _ _)
      cases xs with
      | nil =>
        cases ys with
        | nil => simpa [joinWith] using h
        | cons y' ys =>
          exfalso
          simp only [joinWith, List.append_assoc, List.singleton_append] at h
          apply hx1.2
          rw [h]
          simp
      | cons x' xs =>
        cases ys with
        | nil =>
          exfalso
          simp only [joinWith, List.append_assoc, List.singleton_append] at h
          apply hy1.2
          rw [← h]
          simp
        | cons y' ys =>
          simp only [joinWith_cons_cons, List.append_assoc, List.singleton_append] at h
          obtain ⟨h1, h2⟩ := append_sep_inj sep x y _ _ hx1.2 hy1.2 h
          have := ih (y' :: ys) (fun z hz => hx z (List.mem_cons_of_mem _ hz))
            (fun z hz => hy z (List.mem_cons_of_mem _ hz)) h2
          rw [h1, this]

theorem joinVertexData_injective (a b : List Int) (h : joinVertexData a = joinVertexData b) :
    a = b := by
  have hp : ∀ (l : List Int), ∀ x ∈ l.map intToString, x ≠ [] ∧ Char.ofNat 44 ∉ x := by
    intro l x hx
    obtain ⟨i, _, rfl⟩ := List.mem_map.1 hx
    exact ⟨intToString_ne_nil i, intToString_no_comma i⟩
  have := joinWith_injective (Char.ofNat 44) _ _ (hp a) (hp b) h
  exact List.map_injective_iff.2 (fun x y hxy => intToString_injective x y hxy) this

/-! ## JSON string literals are self-delimiting -/

theorem char_eq_of_toNat_eq (c d : Char) (h : c.toNat = d.toNat) : c = d := by
  apply Char.ext
  apply UInt32.ext
  exact h

theorem hexDigit_toNat :
    ∀ a, a < 16 → (hexDigit a).toNat = if a < 10 then 48 + a else 87 + a := by
  decide

theorem hexDigit_injective (a b : Nat) (ha : a < 16) (hb : b < 16)
    (h : hexDigit a = hexDigit b) : a = b := by
  have h1 := hexDigit_toNat a ha
  have h2 := hexDigit_toNat b hb
  rw [h] at h1
  split_ifs at h1 h2 <;> omega

/-- The three shapes of an escape: the character itself, a backslash and a letter, or a
`\u00XX` sequence. -/
theorem escapeChar_cases (c : Char) :
    (escapeChar c = [c] ∧ c ≠ Char.ofNat 92 ∧ c ≠ Char.ofNat 34)
    ∨ (∃ x, escapeChar c = [Char.ofNat 92, x] ∧ x ≠ Char.ofNat 117
        ∧ c.toNat = if x.toNat = 98 then 8 else if x.toNat = 116 then 9
            else if x.toNat = 110 then 10 else if x.toNat = 102 then 12
            else if x.toNat = 114 then 13 else if x.toNat = 34 then 34 else 92)
    ∨ (c.toNat < 32 ∧ escapeChar c
        = [Char.ofNat 92, Char.ofNat 117, Char.ofNat 48, Char.ofNat 48,
            hexDigit (c.toNat / 16), hexDigit (c.toNat % 16)]) := by
  by_cases h1 : c.toNat = 8
  · exact Or.inr (Or.inl ⟨Char.ofNat 98, by simp [escapeChar, h1], by decide,
      by rw [h1]; simp⟩)
  by_cases h2 : c.toNat = 9
  · exact Or.inr (Or.inl ⟨Char.ofNat 116, by simp [escapeChar, h2], by decide,
      by rw [h2]; simp⟩)
  by_cases h3 : c.toNat = 10
  · exact Or.inr (Or.inl ⟨Char.ofNat 110, by simp [escapeChar, h3], by decide,
      by rw [h3]; simp⟩)
  by_cases h4 : c.toNat = 12
  · exact Or.inr (Or.inl ⟨Char.ofNat 102, by simp [escapeChar, h4], by decide,
      by rw [h4]; simp⟩)
  by_cases h5 : c.toNat = 13
  · exact Or.inr (Or.inl ⟨Char.ofNat 114, by simp [escapeChar, h5], by decide,
      by rw [h5]; simp⟩)
  by_cases h6 : c.toNat = 34
  · exact Or.inr (Or.inl ⟨Char.ofNat 34, by simp [escapeChar, h6], by decide,
      by rw [h6]; simp⟩)
  by_cases h7 : c.toNat = 92
  · exact Or.inr (Or.inl ⟨Char.ofNat 92, by simp [escapeChar, h7], by decide,
      by rw [h7]; simp⟩)
  by_cases h8 : c.toNat < 32
  · exact Or.inr (Or.inr ⟨h8, by simp [escapeChar, h1, h2, h3, h4, h5, h6, h7, h8]⟩)
  · refine Or.inl ⟨by simp [escapeChar, h1, h2, h3, h4, h5, h6, h7, h8], ?_, ?_⟩
    · intro hc
      exact h7 (by rw [hc]; rfl)
    · intro hc
      exact h6 (by rw [hc]; rfl)

/-- The escape of a character is never empty and never starts with the closing quote. -/
theorem escapeChar_head (c : Char) :
    ∃ x rest, escapeChar c = x :: rest ∧ x ≠ Char.ofNat 34 := by
  rcases escapeChar_cases c with ⟨h, _, h34⟩ | ⟨x, h, _⟩ | ⟨_, h⟩
  · exact ⟨c, [], h, h34⟩
  · exact ⟨_, _, h, by decide⟩
  · exact ⟨_, _, h, by decide⟩

/-- Escapes form a code in which no escape starts another: reading one off the front of a
string is unambiguous. -/
theorem escapeChar_delimited (c d : Char) (r1 r2 : JSString)
    (h : escapeChar c ++ r1 = escapeChar d ++ r2) : c = d ∧ r1 = r2 := by
  rcases escapeChar_cases c with ⟨hc, hc92, _⟩ | ⟨x, hc, hx, hcx⟩ | ⟨hc32, hc⟩ <;>
    rcases escapeChar_cases d with ⟨hd, hd92, _⟩ | ⟨y, hd, hy, hdy⟩ | ⟨hd32, hd⟩ <;>
    rw [hc, hd] at h <;>
    simp only [List.cons_append, List.nil_append, List.cons.injEq, true_and] at h
  · exact h
  · exact absurd h.1 hc92
  · exact absurd h.1 hc92
  · exact absurd h.1.symm hd92
  · obtain ⟨hxy, hr⟩ := h
    subst hxy
    exact ⟨char_eq_of_toNat_eq c d (by rw [hcx, hdy]), hr⟩
  · exact absurd h.1 hx
  · exact absurd h.1.symm hd92
  · exact absurd h.1.symm hy
  · obtain ⟨h1, h2, hr⟩ := h
    have e1 := hexDigit_injective _ _ (by omega) (by omega) h1
    have e2 := hexDigit_injective _ _ (Nat.mod_lt _ (by decide)) (Nat.mod_lt _ (by decide)) h2
    exact ⟨char_eq_of_toNat_eq c d (by omega), hr⟩

theorem escapeString_delimited (s : JSString) :
    ∀ (t r1 r2 : JSString),
      escapeString s ++ Char.ofNat 34 :: r1 = escapeString t ++ Char.ofNat 34 :: r2 →
      s = t ∧ r1 = r2 := by
  induction s with
  | nil =>
    intro t r1 r2 h
    cases t with
    | nil => simpa [escapeString] using h
    | cons d t =>
      exfalso
      obtain ⟨x, rest, hx, hne⟩ := escapeChar_head d
      simp only [escapeString, List.nil_append, hx, List.cons_append, List.append_assoc,
        List.cons.injEq] at h
      exact hne h.1.symm
  | cons c s ih =>
    intro t r1 r2 h
    cases t with
    | nil =>
      exfalso
      obtain ⟨x, rest, hx, hne⟩ := escapeChar_head c
      simp only [escapeString, List.nil_append, hx, List.cons_append, List.append_assoc,
        List.cons.injEq] at h
      exact hne h.1
    | cons d t =>
      simp only [escapeString, List.append_assoc] at h
      obtain ⟨hcd, hrest⟩ := escapeChar_delimited c d _ _ h
      obtain ⟨hst, hr⟩ := ih t r1 r2 hrest
      exact ⟨by rw [hcd, hst], hr⟩

/-- A quoted string followed by anything determines the string and what follows. -/
theorem quoteJSON_delimited (a b r1 r2 : JSString)
    (h : quoteJSON a ++ r1 = quoteJSON b ++ r2) : a = b ∧ r1 = r2 := by
  simp only [quoteJSON, List.cons_append, List.append_assoc, List.singleton_append,
    List.cons.injEq, true_and] at h
  exact escapeString_delimited a b r1 r2 h

theorem quoteJSON_head (a r : JSString) :
    ∃ rest, quoteJSON a ++ r = Char.ofNat 34 :: rest := ⟨_, rfl⟩

/-! ## Arrays and objects are self-delimiting -/

/-- Elements written by a self-delimiting encoder, separated by `sep` and closed by `close`,
determine the list of elements and what follows. -/
theorem joinWith_delimited {α : Type} (enc : α → JSString) (sep close : Char)
    (hsc : sep ≠ close)
    (hdelim : ∀ a b r1 r2, enc a ++ r1 = enc b ++ r2 → a = b ∧ r1 = r2)
    (hhead : ∀ a r, ∃ x rest, enc a ++ r = x :: rest ∧ x ≠ close) (xs : List α) :
    ∀ (ys : List α) (r1 r2 : JSString),
      joinWith [sep] (xs.map enc) ++ close :: r1 = joinWith [sep] (ys.map enc) ++ close :: r2 →
      xs = ys ∧ r1 = r2 := by
  induction xs with
  | nil =>
    intro ys r1 r2 h
    cases ys with
    | nil => simpa [joinWith] using h
    | cons y ys =>
      exfalso
      cases ys with
      | nil =>
        obtain ⟨x, rest, hx, hne⟩ := hhead y (close :: r2)
        simp only [List.map_nil, joinWith, List.nil_append, List.map_cons, hx,
          List.cons.injEq] at h
        exact hne h.1.symm
      | cons y' ys =>
        obtain ⟨x, rest, hx, hne⟩ :=
          hhead y (sep :: (joinWith [sep] ((y' :: ys).map enc) ++ close :: r2))
        simp only [List.map_nil, joinWith, List.nil_append, List.map_cons,
          List.append_assoc, List.singleton_append, List.cons_append] at h hx
        rw [hx] at h
        exact hne (List.cons.inj h).1.symm
  | cons x xs ih =>
    intro ys r1 r2 h
    cases ys with
    | nil =>
      exfalso
      cases xs with
      | nil =>
        obtain ⟨x0, rest, hx, hne⟩ := hhead x (close :: r1)
        simp only [List.map_nil, joinWith, List.nil_append, List.map_cons, hx,
          List.cons.injEq] at h
        exact hne h.1
      | cons x' xs =>
        obtain ⟨x0, rest, hx, hne⟩ :=
          hhead x (sep :: (joinWith [sep] ((x' :: xs).map enc) ++ close :: r1))
        simp only [List.map_nil, joinWith, List.nil_append, List.map_cons,
          List.append_assoc, List.singleton_append, List.cons_append] at h hx
        rw [hx] at h
        exact hne (List.cons.inj h).1
    | cons y ys =>
      cases xs with
      | nil =>
        cases ys with
        | nil =>
          simp only [List.map_cons, List.map_nil, joinWith] at h
          obtain ⟨hxy, hr⟩ := hdelim x y _ _ h
          exact ⟨by rw [hxy], (List.cons.inj hr).2⟩
        | cons y' ys =>
          exfalso
          simp only [List.map_cons, List.map_nil, joinWith, List.append_assoc,
            List.singleton_append, List.cons_append] at h
          obtain ⟨_, hr⟩ := hdelim x y _ _ h
          exact hsc (List.cons.inj hr).1.symm
      | cons x' xs =>
        cases ys with
        | nil =>
          exfalso
          simp only [List.map_cons, List.map_nil, joinWith, List.append_assoc,
            List.singleton_append, List.cons_append] at h
          obtain ⟨_, hr⟩ := hdelim x y _ _ h
          exact hsc (List.cons.inj hr).1
        | cons y' ys =>
          simp only [List.map_cons, joinWith_cons_cons, List.append_assoc,
            List.singleton_append, List.cons_append] at h
          obtain ⟨hxy, hr⟩ := hdelim x y _ _ h
          have hr' := (List.cons.inj hr).2
          obtain ⟨hrest, hrr⟩ := ih (y' :: ys) r1 r2 (by simpa using hr')
          exact ⟨by rw [hxy, hrest], hrr⟩

theorem stringifyStrings_delimited (xs ys : List JSString) (r1 r2 : JSString)
    (h : stringifyStrings xs ++ r1 = stringifyStrings ys ++ r2) : xs = ys ∧ r1 = r2 := by
  simp only [stringifyStrings, List.cons_append, List.append_assoc, List.singleton_append,
    List.cons.injEq, true_and] at h
  refine joinWith_delimited quoteJSON (Char.ofNat 44) (Char.ofNat 93) (by decide)
    quoteJSON_delimited ?_ xs ys r1 r2 h
  intro a r
  exact ⟨Char.ofNat 34, _, rfl, by decide⟩

theorem stringifyMember_delimited (p q : JSString × List JSString) (r1 r2 : JSString)
    (h : stringifyMember p ++ r1 = stringifyMember q ++ r2) : p = q ∧ r1 = r2 := by
  simp only [stringifyMember, List.append_assoc, List.cons_append] at h
  obtain ⟨hk, hrest⟩ := quoteJSON_delimited _ _ _ _ h
  obtain ⟨hv, hr⟩ := stringifyStrings_delimited _ _ _ _ (List.cons.inj hrest).2
  exact ⟨Prod.ext hk hv, hr⟩

theorem stringifyMembers_delimited (ps qs : List (JSString × List JSString))
    (r1 r2 : JSString) (h : stringifyMembers ps ++ r1 = stringifyMembers qs ++ r2) :
    ps = qs ∧ r1 = r2 := by
  simp only [stringifyMembers, List.cons_append, List.append_assoc, List.singleton_append,
    List.cons.injEq, true_and] at h
  refine joinWith_delimited stringifyMember (Char.ofNat 44) (Char.ofNat 125) (by decide)
    stringifyMember_delimited ?_ ps qs r1 r2 h
  intro a r
  exact ⟨Char.ofNat 34, _, rfl, by decide⟩

theorem stringifyBool_delimited (a b : Bool) (r1 r2 : JSString)
    (h : stringifyBool a ++ r1 = stringifyBool b ++ r2) : a = b ∧ r1 = r2 := by
  have ht : "true".toList = [Char.ofNat 116, Char.ofNat 114, Char.ofNat 117, Char.ofNat 101] :=
    rfl
  have hf : "false".toList
      = [Char.ofNat 102, Char.ofNat 97, Char.ofNat 108, Char.ofNat 115, Char.ofNat 101] := rfl
  cases a <;> cases b <;>
    simp only [stringifyBool, ht, hf, if_true, if_false, Bool.false_eq_true,
      List.cons_append, List.nil_append, List.cons.injEq, true_and] at h
  · exact ⟨rfl, h⟩
  · exact absurd h.1 (by decide)
  · exact absurd h.1 (by decide)
  · exact ⟨rfl, h⟩

/-- The call `JSON.stringify(signature)` determines every field of `signature` it prints:
the general keys, the `faces` properties in enumeration order, and the three flags. -/
theorem stringifySignature_injective (s t : Signature)
    (h : stringifySignature s = stringifySignature t) :
    s.general = t.general ∧ ownProperties s.faces = ownProperties t.faces
      ∧ s.ambientOcclusion = t.ambientOcclusion ∧ s.gui3d = t.gui3d
      ∧ s.builtInRenderer = t.builtInRenderer := by
  simp only [stringifySignature, List.cons_append, List.append_assoc, List.cons.injEq,
    true_and] at h
  have h1 := (quoteJSON_delimited _ _ _ _ h).2
  obtain ⟨hg, h2⟩ := stringifyStrings_delimited _ _ _ _ (List.cons.inj h1).2
  have h3 := (quoteJSON_delimited _ _ _ _ (List.cons.inj h2).2).2
  obtain ⟨hfaces, h4⟩ := stringifyMembers_delimited _ _ _ _ (List.cons.inj h3).2
  have h5 := (quoteJSON_delimited _ _ _ _ (List.cons.inj h4).2).2
  obtain ⟨hao, h6⟩ := stringifyBool_delimited _ _ _ _ (List.cons.inj h5).2
  have h7 := (quoteJSON_delimited _ _ _ _ (List.cons.inj h6).2).2
  obtain ⟨hgui, h8⟩ := stringifyBool_delimited _ _ _ _ (List.cons.inj h7).2
  have h9 := (quoteJSON_delimited _ _ _ _ (List.cons.inj h8).2).2
  obtain ⟨hbir, _⟩ := stringifyBool_delimited _ _ _ _ (List.cons.inj h9).2
  exact ⟨hg, hfaces, hao, hgui, hbir⟩

/-! ## `Object.fromEntries` and enumeration order commute with a change of values -/

section Objects

variable {V W : Type}

theorem defineProperty_map (f : V → W) (o : List (JSString × V)) (k : JSString) (v : V) :
    defineProperty (o.map (fun p => (p.1, f p.2))) k (f v)
      = (defineProperty o k v).map (fun p => (p.1, f p.2)) := by
  induction o with
  | nil => rfl
  | cons p rest ih =>
    by_cases h : p.1 = k
    · simp [defineProperty, h]
    · simp [defineProperty, h, ih]

theorem foldl_defineProperty_map (f : V → W) (entries : List (JSString × V)) :
    ∀ (o : List (JSString × V)),
      (entries.map (fun p => (p.1, f p.2))).foldl (fun o e => defineProperty o e.1 e.2)
          (o.map (fun p => (p.1, f p.2)))
        = (entries.foldl (fun o e => defineProperty o e.1 e.2) o).map
            (fun p => (p.1, f p.2)) := by
  induction entries with
  | nil => intro o; rfl
  | cons e rest ih =>
    intro o
    simp only [List.map_cons, List.foldl_cons]
    rw [defineProperty_map, ih]

theorem fromEntries_map (f : V → W) (entries : List (JSString × V)) :
    fromEntries (entries.map (fun p => (p.1, f p.2)))
      = (fromEntries entries).map (fun p => (p.1, f p.2)) :=
  foldl_defineProperty_map f entries []

theorem ownProperties_map (f : V → W) (o : List (JSString × V)) :
    ownProperties (o.map (fun p => (p.1, f p.2)))
      = (ownProperties o).map (fun p => (p.1, f p.2)) := by
  unfold ownProperties
  rw [List.map_append, List.filter_map, List.filterMap_map]
  congr 1
  have hfm : List.filterMap
        ((fun p : JSString × W => (arrayIndex p.1).map (fun i => (i, p)))
          ∘ fun p : JSString × V => (p.1, f p.2)) o
      = (List.filterMap (fun p : JSString × V => (arrayIndex p.1).map (fun i => (i, p))) o).map
          (fun q : Nat × (JSString × V) => (q.1, (q.2.1, f q.2.2))) := by
    rw [List.map_filterMap]
    congr 1
    funext p
    simp only [Function.comp]
    cases arrayIndex p.1 <;> rfl
  rw [hfm, ← List.map_insertionSort (r := indexLE) (s := indexLE)]
  · simp only [List.map_map]
    rfl
  · intro a _ b _
    rfl

end Objects

/-! ## `getModelSignature` in terms of the fields it reads -/

theorem arrayMap_quadKey (quads : List BakedQuad) :
    arrayMap quadKey quads = (quadData quads).map (List.map joinVertexData) := by
  induction quads with
  | nil => rfl
  | cons q rest ih =>
    cases hq : q.getVertexData with
    | none => simp [arrayMap, quadKey, quadData, hq]
    | some d =>
      simp only [quadData] at ih
      cases hr : arrayMap (fun quad => quad.getVertexData) rest with
      | none => simp [arrayMap, quadKey, quadData, hq, ih, hr]
      | some ds => simp [arrayMap, quadKey, quadData, hq, ih, hr]

theorem arrayMap_faceEntry (faces : List (JSString × List BakedQuad)) :
    arrayMap faceEntry faces
      = (arrayMap faceData faces).map
          (List.map (fun e => (e.1, e.2.map joinVertexData))) := by
  induction faces with
  | nil => rfl
  | cons e rest ih =>
    cases hq : quadData e.2 with
    | none => simp [arrayMap, faceEntry, faceData, arrayMap_quadKey, hq]
    | some d =>
      cases hr : arrayMap faceData rest with
      | none => simp [arrayMap, faceEntry, faceData, arrayMap_quadKey, hq, ih, hr]
      | some ds => simp [arrayMap, faceEntry, faceData, arrayMap_quadKey, hq, ih, hr]

/-- The function `getModelSignature` returns `null` exactly when reading the fields raises,
and otherwise the JSON text of the signature object of the fields. -/
theorem getModelSignature_eq (model : BakedModel) :
    getModelSignature model
      = (readFields model).map (fun f => stringifySignature (signatureOf f)) := by
  unfold getModelSignature readFields
  cases model.getGeneralQuads with
  | none => rfl
  | some gq =>
    simp only [arrayMap_quadKey]
    cases quadData gq with
    | none => rfl
    | some g =>
      cases model.getFaceQuads with
      | none => rfl
      | some fq =>
        simp only [arrayMap_faceEntry, Option.map_some']
        cases arrayMap faceData fq with
        | none => rfl
        | some fs =>
          cases model.isAmbientOcclusion with
          | none => rfl
          | some ao =>
            cases model.isGui3d with
            | none => rfl
            | some gui =>
              cases model.isBuiltInRenderer with
              | none => rfl
              | some bir => rfl

/-- Two field records print the same signature exactly when they agree on the general
geometry, on the `faces` object in enumeration order, and on the three flags. -/
theorem stringifySignature_signatureOf (f g : ModelFields) :
    stringifySignature (signatureOf f) = stringifySignature (signatureOf g)
      ↔ f.general = g.general ∧ faceObject f = faceObject g
        ∧ f.ambientOcclusion = g.ambientOcclusion ∧ f.gui3d = g.gui3d
        ∧ f.builtInRenderer = g.builtInRenderer := by
  have hinj : Function.Injective (List.map joinVertexData) :=
    List.map_injective_iff.2 (fun a b hab => joinVertexData_injective a b hab)
  have hpair : Function.Injective
      (fun p : JSString × List (List Int) => (p.1, p.2.map joinVertexData)) := by
    intro p q hpq
    simp only [Prod.mk.injEq] at hpq
    exact Prod.ext hpq.1 (hinj hpq.2)
  have hfaces : ∀ h : ModelFields, ownProperties (signatureOf h).faces
      = (faceObject h).map (fun p => (p.1, p.2.map joinVertexData)) := by
    intro h
    simp only [signatureOf, faceObject]
    rw [fromEntries_map (List.map joinVertexData), ownProperties_map (List.map joinVertexData)]
  constructor
  · intro h
    obtain ⟨h1, h2, h3, h4, h5⟩ := stringifySignature_injective _ _ h
    rw [hfaces f, hfaces g] at h2
    exact ⟨hinj h1, List.map_injective_iff.2 hpair h2, h3, h4, h5⟩
  · rintro ⟨h1, h2, h3, h4, h5⟩
    have e := hfaces f
    rw [h2, ← hfaces g] at e
    simp only [stringifySignature, e]
    simp only [signatureOf, h1, h3, h4, h5]

/-- Models whose accessors do not raise have equal signatures exactly when their field
records print the same signature object. -/
theorem getModelSignature_eq_iff_fields (A B : BakedModel) (fa fb : ModelFields)
    (hA : readFields A = some fa) (hB : readFields B = some fb) :
    getModelSignature A = getModelSignature B
      ↔ fa.general = fb.general ∧ faceObject fa = faceObject fb
        ∧ fa.ambientOcclusion = fb.ambientOcclusion ∧ fa.gui3d = fb.gui3d
        ∧ fa.builtInRenderer = fb.builtInRenderer := by
  rw [getModelSignature_eq, getModelSignature_eq, hA, hB, ← stringifySignature_signatureOf]
  simp

/-! ## Properties of `getModelSignature` -/

/-- Counterexample to C2 as stated: two models whose accessors do not raise, with the face
keys `1`, `0` listed in opposite orders, have different face sequences and yet the same
signature, because the keys are array indices and an object enumerates those in ascending
order. -/
theorem signature_ignores_index_key_order :
    getModelSignature (sampleFacesA 1) = getModelSignature (sampleFacesB 2)
      ∧ getModelSignature (sampleFacesA 1) ≠ none
      ∧ readFields (sampleFacesA 1) ≠ none ∧ readFields (sampleFacesB 2) ≠ none
      ∧ readFields (sampleFacesA 1) ≠ readFields (sampleFacesB 2) := by
  refine ⟨by decide, by decide, by decide, by decide, by decide⟩

/-- A face key listed twice: only its last entry reaches the signature, so the model has
the signature of the model that lists that entry alone. -/
theorem signature_ignores_overridden_entry :
    getModelSignature (sampleFacesTwice 1) = getModelSignature (sampleFacesOnce 2)
      ∧ getModelSignature (sampleFacesTwice 1) ≠ none
      ∧ readFields (sampleFacesTwice 1) ≠ readFields (sampleFacesOnce 2) := by
  refine ⟨by decide, by decide, by decide⟩

/-- C2 (amended): for models whose accessors do not raise, the signatures are equal if and
only if the general geometry sequences are equal, the face objects that `Object.fromEntries`
builds from the face entries are equal in enumeration order (for a key listed more than once
only the last entry counts, array-index keys come first in ascending order, the other keys
keep their order), and the three flags are equal. -/
theorem signature_eq_iff (A B : BakedModel) (fa fb : ModelFields)
    (hA : readFields A = some fa) (hB : readFields B = some fb) :
    getModelSignature A = getModelSignature B
      ↔ fa.general = fb.general ∧ faceObject fa = faceObject fb
        ∧ fa.ambientOcclusion = fb.ambientOcclusion ∧ fa.gui3d = fb.gui3d
        ∧ fa.builtInRenderer = fb.builtInRenderer := by
  rw [getModelSignature_eq, getModelSignature_eq, hA, hB]
  simp only [Option.map_some', Option.some.injEq]
  exact stringifySignature_signatureOf fa fb

/-- Witness for C2 (amended): M1 and M2 of the specification's scenario. -/
theorem signature_eq_iff_witness :
    getModelSignature (sampleM1 1) = getModelSignature (sampleM2 2)
      ↔ [[(0 : Int), 0, 0, 1, 1]] = [[0, 0, 0, 1, 2]]
        ∧ faceObject ⟨[[0, 0, 0, 1, 1]], [], false, false, false⟩
            = faceObject ⟨[[0, 0, 0, 1, 2]], [], false, false, false⟩
        ∧ false = false ∧ false = false ∧ false = false :=
  signature_eq_iff (sampleM1 1) (sampleM2 2) ⟨[[0, 0, 0, 1, 1]], [], false, false, false⟩
    ⟨[[0, 0, 0, 1, 2]], [], false, false, false⟩ rfl rfl

section Objects

variable {V : Type}

theorem defineProperty_new (o : List (JSString × V)) (k : JSString) (v : V)
    (h : k ∉ o.map Prod.fst) : defineProperty o k v = o ++ [(k, v)] := by
  induction o with
  | nil => rfl
  | cons p rest ih =>
    simp only [List.map_cons, List.mem_cons, not_or] at h
    have hne : ¬ p.1 = k := fun e => h.1 e.symm
    simp [defineProperty, hne, ih h.2]

theorem foldl_defineProperty_nodup (entries : List (JSString × V)) :
    ∀ (o : List (JSString × V)), ((o ++ entries).map Prod.fst).Nodup →
      entries.foldl (fun o e => defineProperty o e.1 e.2) o = o ++ entries := by
  induction entries with
  | nil => intro o _; simp
  | cons e rest ih =>
    intro o h
    have hnew : e.1 ∉ o.map Prod.fst := by
      intro hm
      rw [List.map_append, List.map_cons] at h
      have := (List.nodup_append.1 h).2.2
      exact this hm (List.mem_cons_self _ _)
    have h' : (((o ++ [e]) ++ rest).map Prod.fst).Nodup := by
      simpa [List.append_assoc] using h
    simp only [List.foldl_cons]
    rw [defineProperty_new o e.1 e.2 hnew, ih (o ++ [e]) h']
    simp [List.append_assoc]

/-- Entries with pairwise distinct keys: `Object.fromEntries` creates them in order. -/
theorem fromEntries_of_nodup (entries : List (JSString × V))
    (h : (entries.map Prod.fst).Nodup) : fromEntries entries = entries := by
  have := foldl_defineProperty_nodup entries [] (by simpa using h)
  simpa [fromEntries] using this

/-- An object none of whose keys is an array index enumerates in creation order. -/
theorem ownProperties_of_no_index (o : List (JSString × V))
    (h : ∀ p ∈ o, arrayIndex p.1 = none) : ownProperties o = o := by
  unfold ownProperties
  have h1 : o.filterMap (fun p => (arrayIndex p.1).map (fun i => (i, p))) = [] := by
    rw [List.filterMap_eq_nil_iff]
    intro p hp
    simp [h p hp]
  have h2 : o.filter (fun p => (arrayIndex p.1).isNone) = o := by
    rw [List.filter_eq_self]
    intro p hp
    simp [h p hp]
  rw [h1, h2]
  rfl

end Objects

/-- Face entries with pairwise distinct keys, none an array index: the face object is the
sequence of entries itself. -/
theorem faceObject_of_plain_keys (f : ModelFields) (hd : (f.faces.map Prod.fst).Nodup)
    (hi : ∀ p ∈ f.faces, arrayIndex p.1 = none) : faceObject f = f.faces := by
  unfold faceObject
  rw [fromEntries_of_nodup _ hd, ownProperties_of_no_index _ hi]

/-- C2 holds as stated for models whose face keys are pairwise distinct and none of which is
an array index: equal signatures if and only if equal fields. -/
theorem signature_eq_iff_of_plain_keys (A B : BakedModel) (fa fb : ModelFields)
    (hA : readFields A = some fa) (hB : readFields B = some fb)
    (hda : (fa.faces.map Prod.fst).Nodup) (hia : ∀ p ∈ fa.faces, arrayIndex p.1 = none)
    (hdb : (fb.faces.map Prod.fst).Nodup) (hib : ∀ p ∈ fb.faces, arrayIndex p.1 = none) :
    getModelSignature A = getModelSignature B ↔ fa = fb := by
  rw [getModelSignature_eq_iff_fields A B fa fb hA hB, faceObject_of_plain_keys fa hda hia,
    faceObject_of_plain_keys fb hdb hib]
  constructor
  · rintro ⟨h1, h2, h3, h4, h5⟩
    cases fa
    cases fb
    simp_all
  · rintro rfl
    exact ⟨rfl, rfl, rfl, rfl, rfl⟩

/-! ## Baking two different models -/

/-- Counterexample to C8 as stated: the two models list the same face entries in opposite
orders, so they differ in a rendering-relevant field; baked one after the other from the
empty store, the second call returns the first model and the counter is 1. -/
theorem bake_index_key_order_deduplicated :
    readFields (sampleFacesA 1) ≠ none ∧ readFields (sampleFacesB 2) ≠ none
      ∧ readFields (sampleFacesA 1) ≠ readFields (sampleFacesB 2)
      ∧ (bakeAll sampleBake BakeState.initial [(sampleFacesA 1, ()), (sampleFacesB 2, ())]).1
          = [.ok (sampleFacesA 1), .ok (sampleFacesA 1)]
      ∧ (bakeAll sampleBake BakeState.initial
          [(sampleFacesA 1, ()), (sampleFacesB 2, ())]).2.modelsDeduplicated = 1 := by
  refine ⟨by decide, by decide, by decide, by rfl, by decide⟩

/-- C8 (amended): two models whose accessors do not raise and that differ in the general
geometry, in the face object built by `Object.fromEntries` (enumeration order), or in a
flag: baked one after the other from the empty store, each call returns its own baked model,
the two are distinct, and the counter stays 0. -/
theorem bake_distinct_artifacts {Raw Tr E : Type} (orig : Raw → Tr → Except E BakedModel)
    (c1 c2 : Raw × Tr) (M1 M2 : BakedModel) (f1 f2 : ModelFields)
    (h1 : orig c1.1 c1.2 = .ok M1) (h2 : orig c2.1 c2.2 = .ok M2)
    (hf1 : readFields M1 = some f1) (hf2 : readFields M2 = some f2)
    (hdiff : f1.general ≠ f2.general ∨ faceObject f1 ≠ faceObject f2
      ∨ f1.ambientOcclusion ≠ f2.ambientOcclusion ∨ f1.gui3d ≠ f2.gui3d
      ∨ f1.builtInRenderer ≠ f2.builtInRenderer) :
    M1 ≠ M2
      ∧ (bakeAll orig BakeState.initial [c1, c2]).1 = [.ok M1, .ok M2]
      ∧ (bakeAll orig BakeState.initial [c1, c2]).2.modelsDeduplicated = 0 := by
  have hne : getModelSignature M1 ≠ getModelSignature M2 := by
    intro h
    obtain ⟨e1, e2, e3, e4, e5⟩ := (getModelSignature_eq_iff_fields M1 M2 f1 f2 hf1 hf2).1 h
    rcases hdiff with d | d | d | d | d
    · exact d e1
    · exact d e2
    · exact d e3
    · exact d e4
    · exact d e5
  have hs1 : getModelSignature M1 = some (stringifySignature (signatureOf f1)) := by
    rw [getModelSignature_eq, hf1]; rfl
  have hs2 : getModelSignature M2 = some (stringifySignature (signatureOf f2)) := by
    rw [getModelSignature_eq, hf2]; rfl
  have hkey : stringifySignature (signatureOf f1) ≠ stringifySignature (signatureOf f2) := by
    intro h
    exact hne (by rw [hs1, hs2, h])
  have step1 := bakeModel_miss orig c1.1 c1.2 BakeState.initial M1 _ h1 hs1 rfl
  have hfind : (JSMap.set BakeState.initial.modelCache
      (stringifySignature (signatureOf f1)) M1).find (stringifySignature (signatureOf f2))
        = none := by
    simp [BakeState.initial, JSMap.set, JSMap.find, hkey]
  have step2 := bakeModel_miss orig c2.1 c2.2
    { BakeState.initial with
      modelCache := JSMap.set BakeState.initial.modelCache
        (stringifySignature (signatureOf f1)) M1 } M2 _ h2 hs2 hfind
  refine ⟨fun h => hne (by rw [h]), ?_, ?_⟩
  · simp [bakeAll, step1, step2]
  · simp only [bakeAll, step1, step2]
    rfl

/-- Witness for C8 (amended): M1 then M2 of the specification's scenario, which differ in
one vertex datum of the general quad. -/
theorem bake_distinct_artifacts_witness :
    sampleM1 1 ≠ sampleM2 2
      ∧ (bakeAll sampleBake BakeState.initial [(sampleM1 1, ()), (sampleM2 2, ())]).1
          = [.ok (sampleM1 1), .ok (sampleM2 2)]
      ∧ (bakeAll sampleBake BakeState.initial
          [(sampleM1 1, ()), (sampleM2 2, ())]).2.modelsDeduplicated = 0 :=
  bake_distinct_artifacts sampleBake (sampleM1 1, ()) (sampleM2 2, ()) (sampleM1 1)
    (sampleM2 2) ⟨[[0, 0, 0, 1, 1]], [], false, false, false⟩
    ⟨[[0, 0, 0, 1, 2]], [], false, false, false⟩ rfl rfl rfl rfl (Or.inl (by decide))



/-! ## Lemmas on the lookup cache -/

section CacheLemmas

variable {σ K V E R : Type}

theorem JSMap.find_set [DecidableEq K] (m : JSMap K V) (k k' : K) (v : V) :
    JSMap.find (JSMap.set m k v) k' = if k = k' then some v else JSMap.find m k' := by
  by_cases h : k = k'
  · subst h
    simp [JSMap.find_set_self]
  · simp [h, JSMap.find_set_other _ _ _ _ h]

/-- The cache is absent or empty. -/
theorem coherent_of_empty [DecidableEq K] (query : σ → K → Except E V) (this : Instance σ K V)
    (h : this.cache = none ∨ this.cache = some []) : Coherent query this := by
  intro m hm k v hf
  rcases h with h | h
  · rw [h] at hm
    cases hm
  · rw [h] at hm
    cases hm
    simp [JSMap.find] at hf

theorem clearCache_host (this : Instance σ K V) : (clearCache this).host = this.host := by
  unfold clearCache
  cases this.cache <;> rfl

theorem clearCache_cache (this : Instance σ K V) :
    (clearCache this).cache = this.cache.map (fun _ => []) := by
  unfold clearCache
  cases h : this.cache with
  | none => simp [h]
  | some m => simp [JSMap.clear]

theorem clearCache_empty (this : Instance σ K V) :
    (clearCache this).cache = none ∨ (clearCache this).cache = some [] := by
  rw [clearCache_cache]
  cases this.cache with
  | none => exact Or.inl rfl
  | some m => exact Or.inr rfl

/-- A hit: the bound value is returned, the instance is untouched and the original is not
consulted. -/
theorem getByClass_hit [DecidableEq K] [Inhabited V] (g : K → σ → Except E V × σ)
    (this : Instance σ K V)
    (m : JSMap K V) (k : K) (v : V) (hm : this.cache = some m) (hf : JSMap.find m k = some v) :
    CIMM_getByClass g this k = (.ok v, this) := by
  have hhas : JSMap.has m k = true := (JSMap.has_eq_true_iff _ _).2 ⟨v, hf⟩
  simp [CIMM_getByClass, hm, hhas, JSMap.get_of_find _ _ _ hf]

/-- A miss on an attached cache: the original is called and a returned value is bound. -/
theorem getByClass_miss [DecidableEq K] [Inhabited V] (g : K → σ → Except E V × σ)
    (this : Instance σ K V)
    (m : JSMap K V) (k : K) (hm : this.cache = some m) (hf : JSMap.find m k = none) :
    CIMM_getByClass g this k
      = ((g k this.host).1,
          { host := (g k this.host).2,
            cache := some (match (g k this.host).1 with
              | .ok result => JSMap.set m k result
              | .error _ => m) }) := by
  have hhas : JSMap.has m k = false := (JSMap.has_eq_false_iff _ _).2 hf
  simp only [CIMM_getByClass, hm, hhas]
  rcases hg : g k this.host with ⟨r, h'⟩
  cases r <;> simp

/-- No attached cache: the original is called and nothing is attached. -/
theorem getByClass_degraded [DecidableEq K] [Inhabited V] (g : K → σ → Except E V × σ)
    (this : Instance σ K V) (k : K)
    (hm : this.cache = none) :
    CIMM_getByClass g this k
      = ((g k this.host).1, { host := (g k this.host).2, cache := none }) := by
  simp [CIMM_getByClass, hm]

/-- With an original `getByClass` that is a function of the host state, a hooked
`getByClass` on a coherent instance returns what the original would return, leaves the host
state alone and keeps the instance coherent. -/
theorem getByClass_coherent [DecidableEq K] [Inhabited V] (g : K → σ → Except E V × σ)
    (query : σ → K → Except E V)
    (hq : ∀ k h, g k h = (query h k, h)) (this : Instance σ K V) (k : K)
    (hc : Coherent query this) :
    (CIMM_getByClass g this k).1 = query this.host k
      ∧ (CIMM_getByClass g this k).2.host = this.host
      ∧ Coherent query (CIMM_getByClass g this k).2 := by
  cases hm : this.cache with
  | none =>
    rw [getByClass_degraded g this k hm, hq]
    refine ⟨rfl, rfl, ?_⟩
    exact coherent_of_empty query _ (Or.inl rfl)
  | some m =>
    cases hf : JSMap.find m k with
    | some v =>
      rw [getByClass_hit g this m k v hm hf]
      exact ⟨(hc m hm k v hf).symm, rfl, hc⟩
    | none =>
      rw [getByClass_miss g this m k hm hf, hq]
      refine ⟨rfl, rfl, ?_⟩
      intro m' hm' k' v' hf'
      simp only [Option.some.injEq] at hm'
      subst hm'
      cases hr : query this.host k with
      | error e =>
        rw [hr] at hf'
        exact hc m hm k' v' hf'
      | ok result =>
        rw [hr] at hf'
        simp only [JSMap.find_set] at hf'
        by_cases hk : k = k'
        · subst hk
          simp only [if_true, Option.some.injEq] at hf'
          subst hf'
          exact hr
        · simp only [hk, if_false] at hf'
          exact hc m hm k' v' hf'

end CacheLemmas

section RunLemmas

variable {σ K V E R : Type}

/-- Quiet host code keeps the host state and the coherence of the cache. -/
theorem run_quiet [DecidableEq K] [Inhabited V] (g : K → σ → Except E V × σ)
    (query : σ → K → Except E V) (hq : ∀ k h, g k h = (query h k, h))
    (c : HostCode σ K V E R) :
    ∀ (this : Instance σ K V), c.Quiet → Coherent query this →
      (c.run g this).2.host = this.host ∧ Coherent query (c.run g this).2 := by
  induction c with
  | ret r => intro this _ hc; exact ⟨rfl, hc⟩
  | raise e => intro this _ hc; exact ⟨rfl, hc⟩
  | read next ih =>
    intro this hquiet hc
    exact ih this.host this (hquiet this.host) hc
  | write h next _ =>
    intro this hquiet
    exact absurd hquiet (by simp [HostCode.Quiet])
  | callGetByClass k next ih =>
    intro this hquiet hc
    obtain ⟨_, h2, h3⟩ := getByClass_coherent g query hq this k hc
    obtain ⟨h4, h5⟩ := ih _ (CIMM_getByClass g this k).2 (hquiet _) h3
    exact ⟨by simpa [HostCode.run, h2] using h4, by simpa [HostCode.run] using h5⟩
  | callAdd original next iho ihn =>
    intro this hquiet hc
    have hclear : Coherent query (clearCache this) :=
      coherent_of_empty query _ (clearCache_empty this)
    obtain ⟨h1, h2⟩ := iho (clearCache this) hquiet.1 hclear
    obtain ⟨h3, h4⟩ := ihn _ (original.run g (clearCache this)).2 (hquiet.2 _) h2
    exact ⟨by simpa [HostCode.run, CIMM_add, h1, clearCache_host] using h3,
      by simpa [HostCode.run, CIMM_add] using h4⟩
  | callRemove original next iho ihn =>
    intro this hquiet hc
    have hclear : Coherent query (clearCache this) :=
      coherent_of_empty query _ (clearCache_empty this)
    obtain ⟨h1, h2⟩ := iho (clearCache this) hquiet.1 hclear
    obtain ⟨h3, h4⟩ := ihn _ (original.run g (clearCache this)).2 (hquiet.2 _) h2
    exact ⟨by simpa [HostCode.run, CIMM_remove, h1, clearCache_host] using h3,
      by simpa [HostCode.run, CIMM_remove] using h4⟩

/-- Host code that writes before it makes nested calls, started on an empty or absent
cache, ends with a coherent cache. -/
theorem run_readsLast [DecidableEq K] [Inhabited V] (g : K → σ → Except E V × σ)
    (query : σ → K → Except E V) (hq : ∀ k h, g k h = (query h k, h))
    (c : HostCode σ K V E R) :
    ∀ (this : Instance σ K V), c.ReadsLast → (this.cache = none ∨ this.cache = some []) →
      Coherent query (c.run g this).2 := by
  induction c with
  | ret r => intro this _ he; exact coherent_of_empty query this he
  | raise e => intro this _ he; exact coherent_of_empty query this he
  | read next ih =>
    intro this hrl he
    exact ih this.host this (hrl this.host) he
  | write h next ih =>
    intro this hrl he
    exact ih { this with host := h } hrl he
  | callGetByClass k next _ =>
    intro this hrl he
    obtain ⟨_, _, h3⟩ :=
      getByClass_coherent g query hq this k (coherent_of_empty query this he)
    have := (run_quiet g query hq (next (CIMM_getByClass g this k).1)
      (CIMM_getByClass g this k).2 (hrl _) h3).2
    simpa [HostCode.run] using this
  | callAdd original next iho _ =>
    intro this hrl _
    have h2 := iho (clearCache this) hrl.1 (clearCache_empty this)
    have := (run_quiet g query hq (next (original.run g (clearCache this)).1)
      (original.run g (clearCache this)).2 (hrl.2 _) h2).2
    simpa [HostCode.run, CIMM_add] using this
  | callRemove original next iho _ =>
    intro this hrl _
    have h2 := iho (clearCache this) hrl.1 (clearCache_empty this)
    have := (run_quiet g query hq (next (original.run g (clearCache this)).1)
      (original.run g (clearCache this)).2 (hrl.2 _) h2).2
    simpa [HostCode.run, CIMM_remove] using this

/-- Host code without nested `getByClass` leaves the attached cache as it is, or empty. -/
theorem run_noQuery [DecidableEq K] [Inhabited V] (g : K → σ → Except E V × σ)
    (c : HostCode σ K V E R) :
    ∀ (this : Instance σ K V), c.NoQuery →
      (c.run g this).2.cache = this.cache
        ∨ (c.run g this).2.cache = this.cache.map (fun _ => []) := by
  induction c with
  | ret r => intro this _; exact Or.inl rfl
  | raise e => intro this _; exact Or.inl rfl
  | read next ih =>
    intro this hn
    exact ih this.host this (hn this.host)
  | write h next ih =>
    intro this hn
    exact ih { this with host := h } hn
  | callGetByClass k next _ =>
    intro this hn
    exact absurd hn (by simp [HostCode.NoQuery])
  | callAdd original next iho ihn =>
    intro this hn
    right
    have h1 := iho (clearCache this) hn.1
    have h2 := ihn (original.run g (clearCache this)).1
      (original.run g (clearCache this)).2 (hn.2 _)
    simp only [clearCache_cache] at h1
    have h1' : (original.run g (clearCache this)).2.cache = this.cache.map (fun _ => []) := by
      rcases h1 with h1 | h1
      · exact h1
      · rw [h1]; cases this.cache <;> rfl
    simp only [HostCode.run, CIMM_add]
    rcases h2 with h2 | h2
    · rw [h2, h1']
    · rw [h2, h1']; cases this.cache <;> rfl
  | callRemove original next iho ihn =>
    intro this hn
    right
    have h1 := iho (clearCache this) hn.1
    have h2 := ihn (original.run g (clearCache this)).1
      (original.run g (clearCache this)).2 (hn.2 _)
    simp only [clearCache_cache] at h1
    have h1' : (original.run g (clearCache this)).2.cache = this.cache.map (fun _ => []) := by
      rcases h1 with h1 | h1
      · exact h1
      · rw [h1]; cases this.cache <;> rfl
    simp only [HostCode.run, CIMM_remove]
    rcases h2 with h2 | h2
    · rw [h2, h1']
    · rw [h2, h1']; cases this.cache <;> rfl

/-- On an instance without an attached cache, host code runs as on the unmodified host and
no cache appears. -/
theorem run_degraded [DecidableEq K] [Inhabited V] (g : K → σ → Except E V × σ)
    (c : HostCode σ K V E R) :
    ∀ (h : σ), c.run g { host := h, cache := none }
      = ((c.runOriginal g h).1, { host := (c.runOriginal g h).2, cache := none }) := by
  induction c with
  | ret r => intro h; rfl
  | raise e => intro h; rfl
  | read next ih => intro h; exact ih h h
  | write h' next ih => intro h; exact ih h'
  | callGetByClass k next ih =>
    intro h
    simp only [HostCode.run, HostCode.runOriginal,
      getByClass_degraded g { host := h, cache := none } k rfl]
    exact ih _ _
  | callAdd original next iho ihn =>
    intro h
    simp only [HostCode.run, HostCode.runOriginal, CIMM_add, clearCache, iho h]
    exact ihn _ _
  | callRemove original next iho ihn =>
    intro h
    simp only [HostCode.run, HostCode.runOriginal, CIMM_remove, clearCache, iho h]
    exact ihn _ _

end RunLemmas

/-! ## Properties of the lookup cache -/

section CacheClaims

variable {σ A K V E R : Type}

/-- A constructed instance has an attached, empty cache. -/
theorem construct_cache [DecidableEq K] [Inhabited V] (H : Host σ A K V E R) (args : A)
    (h0 : σ) (this0 : Instance σ K V) (hctor : construct H args h0 = (.ok (), this0)) :
    this0.cache = some [] := by
  unfold construct CIMM_constructor at hctor
  split at hctor
  · cases hctor
  · simp only [Prod.mk.injEq, true_and] at hctor
    rw [← hctor]

/-- A top-level call keeps the cache coherent when the original mutations write before
they make nested calls. -/
theorem hooked_coherent [DecidableEq K] [Inhabited V] (H : Host σ A K V E R)
    (query : σ → K → Except E V) (hq : ∀ k h, H.getByClass k h = (query h k, h))
    (hadd : ∀ a, (H.add a).ReadsLast) (hremove : ∀ a, (H.remove a).ReadsLast)
    (c : Call A K) (this : Instance σ K V) (hc : Coherent query this) :
    Coherent query (hooked H c this).2 := by
  cases c with
  | add a =>
    exact run_readsLast H.getByClass query hq (H.add a) (clearCache this) (hadd a)
      (clearCache_empty this)
  | remove a =>
    exact run_readsLast H.getByClass query hq (H.remove a) (clearCache this) (hremove a)
      (clearCache_empty this)
  | getByClass k => exact (getByClass_coherent H.getByClass query hq this k hc).2.2

theorem hookedAll_coherent [DecidableEq K] [Inhabited V] (H : Host σ A K V E R)
    (query : σ → K → Except E V) (hq : ∀ k h, H.getByClass k h = (query h k, h))
    (hadd : ∀ a, (H.add a).ReadsLast) (hremove : ∀ a, (H.remove a).ReadsLast)
    (calls : List (Call A K)) :
    ∀ (this : Instance σ K V), Coherent query this →
      Coherent query (hookedAll H this calls).2 := by
  induction calls with
  | nil => intro this hc; exact hc
  | cons c rest ih =>
    intro this hc
    exact ih _ (hooked_coherent H query hq hadd hremove c this hc)

end CacheClaims

/-- Counterexample to C3 as stated: the host's `getByClass` is a function of the contents
and the contents change only through `add` and `remove`, but the original `add` looks up
the class 0 before it appends. On a constructed instance, `add 2` then `getByClass 0`
returns the empty list from the cache, while the original `getByClass 0` on the contents
`[2]` returns `[2]`. -/
theorem getByClass_stale_after_reentrant_add :
    construct sampleReentrantHost 0 [] = (.ok (), { host := [], cache := some [] })
      ∧ hookedAll sampleReentrantHost { host := [], cache := some [] } [.add 2, .getByClass 0]
          = ([.mutated (.ok true), .queried (.ok [])],
              { host := [2], cache := some [(0, [])] })
      ∧ sampleReentrantHost.getByClass 0 [2] = (.ok [2], [2]) :=
  ⟨rfl, rfl, rfl⟩

/-- C3 (amended): on an instance created through the hooked constructor, where the host's
`getByClass` is a function of the contents, the contents change only through `add` and
`remove`, and the original `add` and `remove` finish writing the contents before they make
nested calls to the hooked methods (in particular when they make none): after every finite
sequence of top-level hooked calls, a hooked `getByClass` returns exactly what the original
`getByClass` returns on the current contents. -/
theorem getByClass_refines_original {σ A K V E R : Type} [DecidableEq K] [Inhabited V]
    (H : Host σ A K V E R) (query : σ → K → Except E V)
    (hq : ∀ k h, H.getByClass k h = (query h k, h))
    (hadd : ∀ a, (H.add a).ReadsLast) (hremove : ∀ a, (H.remove a).ReadsLast)
    (args : A) (h0 : σ) (this0 : Instance σ K V)
    (hctor : construct H args h0 = (.ok (), this0)) (calls : List (Call A K)) (k : K) :
    (CIMM_getByClass H.getByClass (hookedAll H this0 calls).2 k).1
      = (H.getByClass k (hookedAll H this0 calls).2.host).1 := by
  have h0c : Coherent query this0 :=
    coherent_of_empty query this0 (Or.inr (construct_cache H args h0 this0 hctor))
  have hc := hookedAll_coherent H query hq hadd hremove calls this0 h0c
  rw [(getByClass_coherent H.getByClass query hq _ k hc).1, hq]

/-- Witness for C3 (amended): the scenario of the specification on the sample host. -/
theorem getByClass_refines_original_witness :
    (CIMM_getByClass sampleHost.getByClass
        (hookedAll sampleHost { host := [], cache := some [] }
          [.add 2, .getByClass 0, .getByClass 0, .remove 2]).2 0).1
      = (sampleHost.getByClass 0
          (hookedAll sampleHost { host := [], cache := some [] }
            [.add 2, .getByClass 0, .getByClass 0, .remove 2]).2.host).1 :=
  getByClass_refines_original sampleHost sampleQuery (fun _ _ => rfl) (fun _ _ => trivial)
    (fun _ _ => trivial) 0 []
    { host := [], cache := some [] } rfl [.add 2, .getByClass 0, .getByClass 0, .remove 2] 0

/-- Counterexample to C4 as stated: a hooked `add` whose original looks up class 0 before
it appends, on an instance with an attached cache. When the mutation has returned the cache
holds the entry `0 ↦ [4]`, computed before the element was appended; the original
`getByClass 0` on the new contents returns `[4, 2]`. -/
theorem stale_entry_survives_reentrant_add :
    CIMM_add (fun t => (sampleReentrantHost.add 2).run sampleReentrantHost.getByClass t)
        { host := [4], cache := some [(1, [])] }
      = (.ok true, { host := [4, 2], cache := some [(0, [4])] })
    ∧ sampleReentrantHost.getByClass 0 [4, 2] = (.ok [4, 2], [4, 2]) :=
  ⟨rfl, rfl⟩

/-- C4 (amended): for every hooked mutation (`add` or `remove`) on an instance with an
attached cache, reentrant ones included, the state after the mutation does not depend on
the entries the cache held before it (no earlier entry survives); and when the original
finishes writing the contents before it makes nested calls, the cache after the mutation is
empty or holds only entries that agree with the original `getByClass` on the contents after
the mutation. -/
theorem mutation_leaves_no_earlier_entry {σ K V E R : Type} [DecidableEq K] [Inhabited V]
    (g : K → σ → Except E V × σ) (query : σ → K → Except E V)
    (hq : ∀ k h, g k h = (query h k, h)) (original : HostCode σ K V E R) (h : σ)
    (m : JSMap K V) :
    CIMM_add (fun t => original.run g t) { host := h, cache := some m }
        = original.run g { host := h, cache := some [] }
      ∧ CIMM_remove (fun t => original.run g t) { host := h, cache := some m }
        = original.run g { host := h, cache := some [] }
      ∧ (original.ReadsLast →
          Coherent query
              (CIMM_add (fun t => original.run g t) { host := h, cache := some m }).2
            ∧ Coherent query
              (CIMM_remove (fun t => original.run g t) { host := h, cache := some m }).2) := by
  refine ⟨rfl, rfl, fun hrl => ?_⟩
  have := run_readsLast g query hq original { host := h, cache := some [] } hrl (Or.inr rfl)
  exact ⟨this, this⟩

/-- Witness for C4 (amended): `add 2` on the sample host with one memoized class. -/
theorem mutation_leaves_no_earlier_entry_witness :
    CIMM_add (fun t => (sampleHost.add 2).run sampleHost.getByClass t)
        { host := [4], cache := some [(0, [4])] }
        = (sampleHost.add 2).run sampleHost.getByClass { host := [4], cache := some [] }
      ∧ CIMM_remove (fun t => (sampleHost.add 2).run sampleHost.getByClass t)
        { host := [4], cache := some [(0, [4])] }
        = (sampleHost.add 2).run sampleHost.getByClass { host := [4], cache := some [] }
      ∧ ((sampleHost.add 2).ReadsLast →
          Coherent sampleQuery
              (CIMM_add (fun t => (sampleHost.add 2).run sampleHost.getByClass t)
                { host := [4], cache := some [(0, [4])] }).2
            ∧ Coherent sampleQuery
              (CIMM_remove (fun t => (sampleHost.add 2).run sampleHost.getByClass t)
                { host := [4], cache := some [(0, [4])] }).2) :=
  mutation_leaves_no_earlier_entry sampleHost.getByClass sampleQuery (fun _ _ => rfl)
    (sampleHost.add 2) [4] [(0, [4])]

/-- Counterexample to C5 as stated: when the hooked `add` whose original looks up class 0
has returned, the cache is not empty, and a `getByClass 0` issued next is served from it:
it returns the memoized list even with an original that raises on every call. -/
theorem query_after_reentrant_add_is_served :
    (hooked sampleReentrantHost (.add 2) { host := [], cache := some [(1, [5])] }).2
        = { host := [2], cache := some [(0, [])] }
      ∧ CIMM_getByClass sampleRaisingGetByClass { host := [2], cache := some [(0, [])] } 0
        = (.ok [], { host := [2], cache := some [(0, [])] }) :=
  ⟨rfl, rfl⟩

/-- C5 (amended): for every instance with an attached cache, in any cache state, and every
key: once a hooked `add` or `remove` whose original makes no nested call to the hooked
`getByClass` has returned, the cache is empty, so a hooked `getByClass` issued next always
calls the original (and binds the value it returns). -/
theorem query_after_mutation_delegates {σ K V E R : Type} [DecidableEq K] [Inhabited V]
    (g : K → σ → Except E V × σ) (original : HostCode σ K V E R)
    (hn : original.NoQuery) (h : σ) (m : JSMap K V) (k : K) :
    (CIMM_add (fun t => original.run g t) { host := h, cache := some m }).2.cache = some []
      ∧ (CIMM_remove (fun t => original.run g t) { host := h, cache := some m }).2.cache
          = some []
      ∧ ∀ this', this' = (CIMM_add (fun t => original.run g t)
            { host := h, cache := some m }).2
          ∨ this' = (CIMM_remove (fun t => original.run g t)
            { host := h, cache := some m }).2 →
          CIMM_getByClass g this' k
            = ((g k this'.host).1,
                { host := (g k this'.host).2,
                  cache := some (match (g k this'.host).1 with
                    | .ok result => [(k, result)]
                    | .error _ => []) }) := by
  have hrun : (original.run g { host := h, cache := some [] }).2.cache = some [] := by
    rcases run_noQuery g original { host := h, cache := some [] } hn with e | e
    · exact e
    · exact e
  have hadd : (CIMM_add (fun t => original.run g t)
      { host := h, cache := some m }).2.cache = some [] := hrun
  have hremove : (CIMM_remove (fun t => original.run g t)
      { host := h, cache := some m }).2.cache = some [] := hrun
  refine ⟨hadd, hremove, ?_⟩
  intro this' hthis
  have hc : this'.cache = some [] := by
    rcases hthis with e | e <;> rw [e]
    · exact hadd
    · exact hremove
  rw [getByClass_miss g this' [] k hc rfl]
  cases (g k this'.host).1 <;> rfl

/-- Witness for C5 (amended): `add 2` on the sample host, whose original makes no nested
call. -/
theorem query_after_mutation_delegates_witness :
    (CIMM_add (fun t => (sampleHost.add 2).run sampleHost.getByClass t)
        { host := [4], cache := some [(0, [4])] }).2.cache = some [] :=
  (query_after_mutation_delegates sampleHost.getByClass (sampleHost.add 2)
    (fun _ => trivial) [4] [(0, [4])] 0).1

/-- C6: on an instance with an attached cache, when a hooked `getByClass(K)` has returned a
value, the hooked `getByClass(K)` issued next returns that same value and does not change
the instance, whatever the original would do (the original is not called); and when the
first call was a miss, the value is the one the original returned to it. -/
theorem getByClass_repeat_is_served {σ K V E : Type} [DecidableEq K] [Inhabited V]
    (g g2 : K → σ → Except E V × σ) (this this1 : Instance σ K V) (m : JSMap K V)
    (hm : this.cache = some m) (k : K) (v : V)
    (h1 : CIMM_getByClass g this k = (.ok v, this1)) :
    CIMM_getByClass g2 this1 k = (.ok v, this1)
      ∧ (JSMap.has m k = false → (g k this.host).1 = .ok v) := by
  cases hf : JSMap.find m k with
  | some v0 =>
    rw [getByClass_hit g this m k v0 hm hf] at h1
    simp only [Prod.mk.injEq, Except.ok.injEq] at h1
    obtain ⟨hv, ht⟩ := h1
    subst hv ht
    refine ⟨getByClass_hit g2 this m k v0 hm hf, ?_⟩
    intro hhas
    rw [(JSMap.has_eq_false_iff _ _).1 hhas] at hf
    cases hf
  | none =>
    rw [getByClass_miss g this m k hm hf] at h1
    simp only [Prod.mk.injEq] at h1
    obtain ⟨hr, ht⟩ := h1
    refine ⟨?_, fun _ => hr⟩
    subst ht
    rw [hr]
    exact getByClass_hit g2 _ (JSMap.set m k v) k v rfl (JSMap.find_set_self m k v)

/-- Witness for C6: class 1 is looked up twice on the sample host; the second time the
original is one that raises on every call. -/
theorem getByClass_repeat_is_served_witness :
    CIMM_getByClass sampleRaisingGetByClass
        { host := [3, 4], cache := some [(0, [4]), (1, [3])] } 1
        = (.ok [3], { host := [3, 4], cache := some [(0, [4]), (1, [3])] })
      ∧ (JSMap.has [(0, [4])] 1 = false →
          (sampleHost.getByClass 1 [3, 4]).1 = (.ok [3] : Except Unit (List Nat))) :=
  getByClass_repeat_is_served sampleHost.getByClass sampleRaisingGetByClass
    { host := [3, 4], cache := some [(0, [4])] }
    { host := [3, 4], cache := some [(0, [4]), (1, [3])] } [(0, [4])] rfl 1 [3] rfl

/-- C10: on an instance without an attached cache, every sequence of hooked `add`,
`remove` and `getByClass` calls produces exactly the results and the host state of the same
calls on the unmodified host (nested calls included), and the instance still has no cache
afterwards: nothing raises for want of a cache and nothing is memoized. -/
theorem degraded_instance_refines_host {σ A K V E R : Type} [DecidableEq K] [Inhabited V]
    (H : Host σ A K V E R) (calls : List (Call A K)) :
    ∀ (h : σ), hookedAll H { host := h, cache := none } calls
      = ((unhookedAll H h calls).1, { host := (unhookedAll H h calls).2, cache := none }) := by
  induction calls with
  | nil => intro h; rfl
  | cons c rest ih =>
    intro h
    have hstep : hooked H c { host := h, cache := none }
        = ((unhooked H c h).1, { host := (unhooked H c h).2, cache := none }) := by
      cases c with
      | add a =>
        simp only [hooked, unhooked, CIMM_add, clearCache, run_degraded]
      | remove a =>
        simp only [hooked, unhooked, CIMM_remove, clearCache, run_degraded]
      | getByClass k =>
        simp only [hooked, unhooked,
          getByClass_degraded H.getByClass { host := h, cache := none } k rfl]
    simp only [hookedAll, unhookedAll, hstep, ih]

/-! ## The store only grows -/

namespace JSMap

variable {K V : Type} [DecidableEq K]

theorem set_of_find_none (m : JSMap K V) (k : K) (v : V) (h : find m k = none) :
    set m k v = m ++ [(k, v)] := by
  induction m with
  | nil => rfl
  | cons p rest ih =>
    obtain ⟨k', v'⟩ := p
    by_cases hk : k' = k
    · simp [find, hk] at h
    · simp only [find, hk, if_false] at h
      simp [set, hk, ih h]

theorem mem_of_find (m : JSMap K V) (k : K) (v : V) (h : find m k = some v) : (k, v) ∈ m := by
  induction m with
  | nil => simp [find] at h
  | cons p rest ih =>
    obtain ⟨k', v'⟩ := p
    by_cases hk : k' = k
    · simp only [find, hk, if_true, Option.some.injEq] at h
      simp [hk, h]
    · simp only [find, hk, if_false] at h
      exact List.mem_cons_of_mem _ (ih h)

theorem find_ne_none_of_mem (m : JSMap K V) (k : K) (v : V) (h : (k, v) ∈ m) :
    find m k ≠ none := by
  induction m with
  | nil => simp at h
  | cons p rest ih =>
    obtain ⟨k', v'⟩ := p
    by_cases hk : k' = k
    · simp [find, hk]
    · simp only [List.mem_cons, Prod.mk.injEq] at h
      rcases h with h | h
      · exact absurd h.1.symm hk
      · simpa [find, hk] using ih h

end JSMap

/-- What one call does to the store: nothing, or one new entry for a signature that was not
a key, binding the model just baked. -/
theorem bakeModel_store {Raw Tr E : Type} (orig : Raw → Tr → Except E BakedModel)
    (model : Raw) (transform : Tr) (st : BakeState) :
    (bakeModel orig model transform st).2.modelCache = st.modelCache
      ∨ ∃ s b, orig model transform = .ok b ∧ getModelSignature b = some s
          ∧ st.modelCache.find s = none
          ∧ (bakeModel orig model transform st).2
              = { st with modelCache := st.modelCache ++ [(s, b)] } := by
  cases hb : orig model transform with
  | error e => left; simp [bakeModel, hb]
  | ok b =>
    cases hs : getModelSignature b with
    | none => left; rw [bakeModel_null orig model transform st b hb hs]
    | some s =>
      cases hf : st.modelCache.find s with
      | some r => left; rw [bakeModel_hit orig model transform st b r s hb hs hf]
      | none =>
        right
        refine ⟨s, b, rfl, hs, hf, ?_⟩
        rw [bakeModel_miss orig model transform st b s hb hs hf,
          JSMap.set_of_find_none _ _ _ hf]

/-- C11: the store is grow-only. For every call and every state of the store, every
signature bound before the call is bound to the same model after it, and the store after
the call is the store before it or that store with one new entry at its end, for a
signature that was not a key. -/
theorem store_grow_only {Raw Tr E : Type} (orig : Raw → Tr → Except E BakedModel)
    (model : Raw) (transform : Tr) (st : BakeState) :
    (∀ s r, st.modelCache.find s = some r →
        (bakeModel orig model transform st).2.modelCache.has s = true
          ∧ (bakeModel orig model transform st).2.modelCache.find s = some r)
      ∧ ((bakeModel orig model transform st).2.modelCache = st.modelCache
          ∨ ∃ s b, st.modelCache.has s = false
              ∧ (bakeModel orig model transform st).2.modelCache
                  = st.modelCache ++ [(s, b)]) := by
  constructor
  · intro s r hr
    have := bakeModel_keeps orig model transform st s r hr
    exact ⟨(JSMap.has_eq_true_iff _ _).2 ⟨r, this⟩, this⟩
  · rcases bakeModel_store orig model transform st with h | ⟨s, b, _, _, hf, h⟩
    · exact Or.inl h
    · exact Or.inr ⟨s, b, (JSMap.has_eq_false_iff _ _).2 hf, by rw [h]⟩

/-- Witness for C11: M2 is baked into the store that holds M1. -/
theorem store_grow_only_witness :
    (bakeModel sampleBake (sampleM2 2) ()
        (bakeModel sampleBake (sampleM1 1) () BakeState.initial).2).2.modelCache.find
        ((getModelSignature (sampleM1 1)).getD []) = some (sampleM1 1) :=
  ((store_grow_only sampleBake (sampleM2 2) ()
    (bakeModel sampleBake (sampleM1 1) () BakeState.initial).2).1
      ((getModelSignature (sampleM1 1)).getD []) (sampleM1 1) (by decide)).2


/-! ## Every stored model carries the signature it is stored under -/

section Sound

variable {Raw Tr E : Type}

theorem storeSound_initial : StoreSound BakeState.initial := by
  intro s a h
  simp [BakeState.initial] at h

theorem bakeModel_sound (orig : Raw → Tr → Except E BakedModel) (model : Raw)
    (transform : Tr) (st : BakeState) (h : StoreSound st) :
    StoreSound (bakeModel orig model transform st).2 := by
  rcases bakeModel_store orig model transform st with e | ⟨s, b, _, hs, _, e⟩
  · intro s a hm
    rw [e] at hm
    exact h s a hm
  · intro s' a hm
    rw [e] at hm
    simp only [List.mem_append, List.mem_singleton, Prod.mk.injEq] at hm
    rcases hm with hm | ⟨rfl, rfl⟩
    · exact h s' a hm
    · exact hs

theorem bakeAll_sound (orig : Raw → Tr → Except E BakedModel) (calls : List (Raw × Tr)) :
    ∀ (st : BakeState), StoreSound st → StoreSound (bakeAll orig st calls).2 := by
  induction calls with
  | nil => intro st h; exact h
  | cons c rest ih =>
    intro st h
    exact ih _ (bakeModel_sound orig c.1 c.2 st h)

/-- In a sound store, a call returns a model the store already held exactly when it takes
the deduplication branch, which is when the counter goes up. -/
theorem bakeModel_counter (orig : Raw → Tr → Except E BakedModel) (model : Raw)
    (transform : Tr) (st : BakeState) (h : StoreSound st) :
    (bakeModel orig model transform st).2.modelsDeduplicated
      = st.modelsDeduplicated
        + (if returnedStored st (bakeModel orig model transform st).1 then 1 else 0) := by
  cases hb : orig model transform with
  | error e => simp [bakeModel, hb, returnedStored]
  | ok b =>
    cases hs : getModelSignature b with
    | none =>
      rw [bakeModel_null orig model transform st b hb hs]
      have : returnedStored st (Except.ok b : Except E BakedModel) = false := by
        simp only [returnedStored, List.any_eq_false, decide_eq_true_eq]
        intro e he heq
        have := h e.1 e.2 he
        rw [heq, hs] at this
        cases this
      simp [this]
    | some s =>
      cases hf : st.modelCache.find s with
      | some r =>
        rw [bakeModel_hit orig model transform st b r s hb hs hf]
        have : returnedStored st (Except.ok r : Except E BakedModel) = true := by
          simp only [returnedStored, List.any_eq_true, decide_eq_true_eq]
          exact ⟨(s, r), JSMap.mem_of_find _ _ _ hf, rfl⟩
        simp [this]
      | none =>
        rw [bakeModel_miss orig model transform st b s hb hs hf]
        have : returnedStored st (Except.ok b : Except E BakedModel) = false := by
          simp only [returnedStored, List.any_eq_false, decide_eq_true_eq]
          intro e he heq
          have h1 := h e.1 e.2 he
          rw [heq, hs] at h1
          simp only [Option.some.injEq] at h1
          have h2 : (s, e.2) ∈ st.modelCache := by rw [h1]; exact he
          exact JSMap.find_ne_none_of_mem _ _ _ h2 hf
        simp [this]

/-- One call: the counter and the size of the store together go up by one exactly when the
baked model has a non-null signature. -/
theorem bakeModel_total (orig : Raw → Tr → Except E BakedModel) (model : Raw)
    (transform : Tr) (st : BakeState) :
    (bakeModel orig model transform st).2.modelsDeduplicated
        + (bakeModel orig model transform st).2.modelCache.length
      = st.modelsDeduplicated + st.modelCache.length
        + (match orig model transform with
            | .ok b => if (getModelSignature b).isSome then 1 else 0
            | .error _ => 0) := by
  cases hb : orig model transform with
  | error e => simp [bakeModel, hb]
  | ok b =>
    cases hs : getModelSignature b with
    | none =>
      rw [bakeModel_null orig model transform st b hb hs]
      simp [hs]
    | some s =>
      cases hf : st.modelCache.find s with
      | some r =>
        rw [bakeModel_hit orig model transform st b r s hb hs hf]
        simp only [hs, Option.isSome_some, if_true]
        omega
      | none =>
        rw [bakeModel_miss orig model transform st b s hb hs hf,
          JSMap.set_of_find_none _ _ _ hf]
        simp only [hs, Option.isSome_some, if_true, List.length_append, List.length_singleton]
        omega

theorem bakeAll_counts (orig : Raw → Tr → Except E BakedModel) (calls : List (Raw × Tr)) :
    ∀ (st : BakeState), StoreSound st →
      (bakeAll orig st calls).2.modelsDeduplicated
          = st.modelsDeduplicated + countReturnedStored orig st calls
        ∧ (bakeAll orig st calls).2.modelsDeduplicated
            + (bakeAll orig st calls).2.modelCache.length
          = st.modelsDeduplicated + st.modelCache.length + countSigned orig calls := by
  induction calls with
  | nil => intro st _; simp [bakeAll, countReturnedStored, countSigned]
  | cons c rest ih =>
    intro st h
    obtain ⟨h1, h2⟩ := ih _ (bakeModel_sound orig c.1 c.2 st h)
    have h3 := bakeModel_counter orig c.1 c.2 st h
    have h4 := bakeModel_total orig c.1 c.2 st
    simp only [bakeAll, countReturnedStored, countSigned]
    constructor
    · rw [h1, h3]; omega
    · rw [h2, h4]; omega

theorem bakeModel_monotone (orig : Raw → Tr → Except E BakedModel) (model : Raw)
    (transform : Tr) (st : BakeState) :
    st.modelsDeduplicated ≤ (bakeModel orig model transform st).2.modelsDeduplicated := by
  cases hb : orig model transform with
  | error e => simp [bakeModel, hb]
  | ok b =>
    cases hs : getModelSignature b with
    | none => rw [bakeModel_null orig model transform st b hb hs]
    | some s =>
      cases hf : st.modelCache.find s with
      | some r =>
        rw [bakeModel_hit orig model transform st b r s hb hs hf]
        simp
      | none => rw [bakeModel_miss orig model transform st b s hb hs hf]

end Sound

/-- C16: after every finite sequence of calls from the initial state, the counter equals the
number of calls that returned a model the store already held, the counter plus the number of
entries of the store equals the number of calls whose baked model had a non-null signature,
and no call, in any state, makes the counter smaller. -/
theorem counter_counts_deduplications {Raw Tr E : Type}
    (orig : Raw → Tr → Except E BakedModel) (calls : List (Raw × Tr)) :
    (bakeAll orig BakeState.initial calls).2.modelsDeduplicated
        = countReturnedStored orig BakeState.initial calls
      ∧ (bakeAll orig BakeState.initial calls).2.modelsDeduplicated
          + (bakeAll orig BakeState.initial calls).2.modelCache.length
        = countSigned orig calls
      ∧ ∀ (model : Raw) (transform : Tr) (st : BakeState),
          st.modelsDeduplicated ≤ (bakeModel orig model transform st).2.modelsDeduplicated := by
  obtain ⟨h1, h2⟩ := bakeAll_counts orig calls BakeState.initial storeSound_initial
  refine ⟨?_, ?_, fun model transform st => bakeModel_monotone orig model transform st⟩
  · rw [h1]; simp [BakeState.initial]
  · rw [h2]; simp [BakeState.initial]

/-- C17: in every state reached from the empty store by calls of the hook, every entry of
the store binds a signature to a model that has this signature; so a call whose baked model
has a non-null signature returns a model with the same signature. -/
theorem returned_model_has_baked_signature {Raw Tr E : Type}
    (orig : Raw → Tr → Except E BakedModel) (calls : List (Raw × Tr)) :
    (∀ s a, (s, a) ∈ (bakeAll orig BakeState.initial calls).2.modelCache →
        getModelSignature a = some s)
      ∧ (∀ s a, (bakeAll orig BakeState.initial calls).2.modelCache.find s = some a →
        getModelSignature a = some s)
      ∧ ∀ (model : Raw) (transform : Tr) (b r : BakedModel) (s : JSString),
          orig model transform = .ok b → getModelSignature b = some s →
          (bakeModel orig model transform (bakeAll orig BakeState.initial calls).2).1 = .ok r →
          getModelSignature r = some s := by
  have hsound := bakeAll_sound orig calls BakeState.initial storeSound_initial
  refine ⟨hsound, fun s a hf => hsound s a (JSMap.mem_of_find _ _ _ hf), ?_⟩
  intro model transform b r s hb hs hr
  cases hf : (bakeAll orig BakeState.initial calls).2.modelCache.find s with
  | some r' =>
    rw [bakeModel_hit orig model transform _ b r' s hb hs hf] at hr
    simp only [Except.ok.injEq] at hr
    subst hr
    exact hsound s r' (JSMap.mem_of_find _ _ _ hf)
  | none =>
    rw [bakeModel_miss orig model transform _ b s hb hs hf] at hr
    simp only [Except.ok.injEq] at hr
    subst hr
    exact hs

/-- Witness for C17: M1 is baked again into the store that holds M1. -/
theorem returned_model_has_baked_signature_witness :
    getModelSignature (sampleM1 1) = some ((getModelSignature (sampleM1 2)).getD []) :=
  (returned_model_has_baked_signature sampleBake [(sampleM1 1, ())]).2.2 (sampleM1 2) ()
    (sampleM1 2) (sampleM1 1) ((getModelSignature (sampleM1 2)).getD []) rfl (by decide) rfl

/-! ## When `getModelSignature` returns `null` -/

theorem arrayMap_eq_none_iff {α β : Type} (f : α → Option β) (xs : List α) :
    arrayMap f xs = none ↔ ∃ x ∈ xs, f x = none := by
  induction xs with
  | nil => simp [arrayMap]
  | cons x rest ih =>
    cases hx : f x with
    | none => simp [arrayMap, hx]
    | some y =>
      cases hr : arrayMap f rest with
      | none =>
        have := ih.1 hr
        simp [arrayMap, hx, hr, this]
      | some ys =>
        have : ¬ ∃ x ∈ rest, f x = none := fun h => by
          have := ih.2 h
          rw [hr] at this
          cases this
        simp only [arrayMap, hx, hr, List.mem_cons, exists_eq_or_imp, false_or]
        simpa using this

theorem quadData_eq_none_iff (quads : List BakedQuad) :
    quadData quads = none ↔ quadsRaise quads = true := by
  simp [quadData, arrayMap_eq_none_iff, quadsRaise]

theorem faceData_eq_none_iff (e : JSString × List BakedQuad) :
    faceData e = none ↔ quadsRaise e.2 = true := by
  unfold faceData
  cases h : quadData e.2 with
  | none => simpa using (quadData_eq_none_iff e.2).1 h
  | some d =>
    have : ¬ quadsRaise e.2 = true := fun hq => by
      have := (quadData_eq_none_iff e.2).2 hq
      rw [h] at this
      cases this
    simpa using this

theorem readFields_eq_none_iff (model : BakedModel) :
    readFields model = none ↔ accessorRaises model = true := by
  unfold readFields accessorRaises
  cases model.getGeneralQuads with
  | none => simp
  | some gq =>
    cases hg : quadData gq with
    | none => simp [hg, (quadData_eq_none_iff gq).1 hg]
    | some g =>
      have hg' : quadsRaise gq = false := by
        cases hq : quadsRaise gq with
        | false => rfl
        | true =>
          have := (quadData_eq_none_iff gq).2 hq
          rw [hg] at this
          cases this
      cases model.getFaceQuads with
      | none => simp [hg]
      | some fq =>
        cases hf : arrayMap faceData fq with
        | none =>
          obtain ⟨e, he, hn⟩ := (arrayMap_eq_none_iff faceData fq).1 hf
          have : fq.any (fun e => quadsRaise e.2) = true :=
            List.any_eq_true.2 ⟨e, he, (faceData_eq_none_iff e).1 hn⟩
          simp [hg, hf, this]
        | some fs =>
          have hf' : fq.any (fun e => quadsRaise e.2) = false := by
            cases hq : fq.any (fun e => quadsRaise e.2) with
            | false => rfl
            | true =>
              obtain ⟨e, he, hr⟩ := List.any_eq_true.1 hq
              have := (arrayMap_eq_none_iff faceData fq).2
                ⟨e, he, (faceData_eq_none_iff e).2 hr⟩
              rw [hf] at this
              cases this
          cases model.isAmbientOcclusion <;> cases model.isGui3d <;>
            cases model.isBuiltInRenderer <;> simp [hg, hf, hg', hf']

/-- C13: the function `getModelSignature` returns a string key or `null` for every model
(it never raises), and it returns `null` exactly when one of the required accessors
(`getGeneralQuads`, `getFaceQuads`, `getVertexData`, `isAmbientOcclusion`, `isGui3d`,
`isBuiltInRenderer`) is unavailable or raises. -/
theorem signature_null_iff_accessor_raises (model : BakedModel) :
    ((∃ key, getModelSignature model = some key) ∨ getModelSignature model = none)
      ∧ (getModelSignature model = none ↔ accessorRaises model = true) := by
  constructor
  · cases h : getModelSignature model with
    | none => exact Or.inr rfl
    | some key => exact Or.inl ⟨key, rfl⟩
  · rw [getModelSignature_eq, Option.map_eq_none', readFields_eq_none_iff]

/-- The sample models: only the ones with a raising accessor have no signature. -/
theorem accessorRaises_samples :
    accessorRaises (sampleM1 1) = false ∧ accessorRaises (sampleBroken 1) = true
      ∧ accessorRaises (sampleBrokenQuad 1) = true
      ∧ getModelSignature (sampleBrokenQuad 1) = none := by
  decide

/-! ## Failures of the originals -/

/-- C12: a failure of the original implementation is the failure of the hooked operation.
A failed bake leaves the store and the counter as they were; a hooked `add` or `remove`
whose original raises raises the same; a hooked `getByClass` that misses (or has no cache)
and whose original raises raises the same and leaves the cache as it was, so nothing is
memoized under the queried key. -/
theorem original_failure_propagates {Raw Tr σ K V E R : Type} [DecidableEq K] [Inhabited V] :
    (∀ (orig : Raw → Tr → Except E BakedModel) (model : Raw) (transform : Tr)
        (st : BakeState) (e : E),
        orig model transform = .error e → bakeModel orig model transform st = (.error e, st))
      ∧ (∀ (original : Instance σ K V → Except E R × Instance σ K V)
          (this : Instance σ K V) (e : E), (original (clearCache this)).1 = .error e →
          (CIMM_add original this).1 = .error e ∧ (CIMM_remove original this).1 = .error e)
      ∧ (∀ (g : K → σ → Except E V × σ) (this : Instance σ K V) (k : K) (e : E),
          servedFromCache this k = false → (g k this.host).1 = .error e →
          (CIMM_getByClass g this k).1 = .error e
            ∧ (CIMM_getByClass g this k).2.cache = this.cache
            ∧ servedFromCache (CIMM_getByClass g this k).2 k = false) := by
  refine ⟨?_, ?_, ?_⟩
  · intro orig model transform st e he
    simp [bakeModel, he]
  · intro original this e he
    exact ⟨he, he⟩
  · intro g this k e hmiss he
    cases hc : this.cache with
    | none =>
      rw [getByClass_degraded g this k hc]
      exact ⟨he, rfl, rfl⟩
    | some m =>
      have hf : JSMap.find m k = none := by
        simp only [servedFromCache, hc] at hmiss
        exact (JSMap.has_eq_false_iff _ _).1 hmiss
      rw [getByClass_miss g this m k hc hf]
      refine ⟨he, ?_, ?_⟩
      · simp only [he]
      · simp only [he, servedFromCache]
        exact (JSMap.has_eq_false_iff _ _).2 hf

/-- Witness for C12: a failing bake into the store that holds M1. -/
theorem original_failure_propagates_witness :
    bakeModel sampleFailingBake (sampleM1 2) ()
        (bakeModel sampleBake (sampleM1 1) () BakeState.initial).2
      = (.error (), (bakeModel sampleBake (sampleM1 1) () BakeState.initial).2) :=
  (original_failure_propagates (σ := List Nat) (K := Nat) (V := List Nat) (R := Bool)).1
    sampleFailingBake (sampleM1 2) () _ () rfl

/-- The hooked operations on failing originals of the sample host. -/
theorem failing_originals_samples :
    CIMM_add (fun t => (sampleFailingAdd 2).run sampleHost.getByClass t)
        { host := [4], cache := some [(0, [4])] }
      = (.error (), { host := [4, 2], cache := some [] })
    ∧ CIMM_getByClass sampleRaisingGetByClass { host := [4], cache := some [(0, [4])] } 1
      = (.error (), { host := [4], cache := some [(0, [4])] }) :=
  ⟨rfl, rfl⟩

/-! ## Nested lookups of a mutation and of a constructor -/

section LookupLemmas

variable {σ K V E R : Type}

theorem servedFromCache_clearCache [DecidableEq K] (this : Instance σ K V) (k : K) :
    servedFromCache (clearCache this) k = false := by
  unfold servedFromCache
  rw [clearCache_cache]
  cases this.cache with
  | none => rfl
  | some m => rfl

/-- A lookup can only add its own key to the cache. -/
theorem servedFromCache_getByClass [DecidableEq K] [Inhabited V]
    (g : K → σ → Except E V × σ) (this : Instance σ K V) (k0 k : K)
    (h : servedFromCache (CIMM_getByClass g this k0).2 k = true) :
    servedFromCache this k = true ∨ k = k0 := by
  cases hc : this.cache with
  | none =>
    rw [getByClass_degraded g this k0 hc] at h
    simp [servedFromCache] at h
  | some m =>
    cases hf : JSMap.find m k0 with
    | some v =>
      rw [getByClass_hit g this m k0 v hc hf] at h
      exact Or.inl h
    | none =>
      rw [getByClass_miss g this m k0 hc hf] at h
      simp only [servedFromCache, hc] at h ⊢
      cases hr : (g k0 this.host).1 with
      | error e =>
        rw [hr] at h
        exact Or.inl h
      | ok result =>
        rw [hr] at h
        by_cases hk : k0 = k
        · exact Or.inr hk.symm
        · left
          obtain ⟨v, hv⟩ := (JSMap.has_eq_true_iff _ _).1 h
          rw [JSMap.find_set_other _ _ _ _ hk] at hv
          exact (JSMap.has_eq_true_iff _ _).2 ⟨v, hv⟩

/-- A lookup that is not served from the cache returns what the original returns. -/
theorem getByClass_delegates [DecidableEq K] [Inhabited V] (g : K → σ → Except E V × σ)
    (this : Instance σ K V) (k : K) (h : servedFromCache this k = false) :
    (CIMM_getByClass g this k).1 = (g k this.host).1 := by
  cases hc : this.cache with
  | none => rw [getByClass_degraded g this k hc]
  | some m =>
    have hf : JSMap.find m k = none := by
      simp only [servedFromCache, hc] at h
      exact (JSMap.has_eq_false_iff _ _).1 h
    rw [getByClass_miss g this m k hc hf]

/-- While host code runs, the first lookup of a key that the cache did not hold at the start
(a key outside `S`) is not served from the cache; afterwards the cache holds only keys of
`S` and keys that were looked up. -/
theorem lookups_first_miss [DecidableEq K] [Inhabited V] (g : K → σ → Except E V × σ)
    (c : HostCode σ K V E R) :
    ∀ (this : Instance σ K V) (S : K → Prop),
      (∀ k, servedFromCache this k = true → S k) →
      (∀ k, ¬ S k → ∀ e, (c.lookups g this).find? (fun e => decide (e.1 = k)) = some e →
          e.2 = false)
        ∧ (∀ k, servedFromCache (c.run g this).2 k = true →
            S k ∨ k ∈ (c.lookups g this).map Prod.fst) := by
  induction c with
  | ret r =>
    intro this S hS
    exact ⟨fun k _ e he => by simp [HostCode.lookups] at he, fun k hk => Or.inl (hS k hk)⟩
  | raise e =>
    intro this S hS
    exact ⟨fun k _ e he => by simp [HostCode.lookups] at he, fun k hk => Or.inl (hS k hk)⟩
  | read next ih =>
    intro this S hS
    exact ih this.host this S hS
  | write h next ih =>
    intro this S hS
    exact ih { this with host := h } S hS
  | callGetByClass k0 next ih =>
    intro this S hS
    have hS' : ∀ k, servedFromCache (CIMM_getByClass g this k0).2 k = true →
        S k ∨ k = k0 := by
      intro k hk
      rcases servedFromCache_getByClass g this k0 k hk with h | h
      · exact Or.inl (hS k h)
      · exact Or.inr h
    obtain ⟨p1, p2⟩ := ih (CIMM_getByClass g this k0).1 (CIMM_getByClass g this k0).2
      (fun k => S k ∨ k = k0) hS'
    constructor
    · intro k hk e he
      simp only [HostCode.lookups, List.find?_cons] at he
      by_cases hkk : k0 = k
      · subst hkk
        simp only [decide_True, Option.some.injEq] at he
        rw [← he]
        cases hserved : servedFromCache this k0 with
        | false => rfl
        | true => exact absurd (hS k0 hserved) hk
      · simp only [hkk, decide_False] at he
        exact p1 k (fun h => h.elim hk (fun h' => hkk h'.symm)) e he
    · intro k hk
      simp only [HostCode.run] at hk
      simp only [HostCode.lookups, List.map_cons, List.mem_cons]
      rcases p2 k hk with (h | h) | h
      · exact Or.inl h
      · exact Or.inr (Or.inl h)
      · exact Or.inr (Or.inr h)
  | callAdd original next iho ihn =>
    intro this S _
    obtain ⟨o1, o2⟩ := iho (clearCache this) (fun _ => False)
      (fun k hk => by rw [servedFromCache_clearCache] at hk; cases hk)
    obtain ⟨n1, n2⟩ := ihn (original.run g (clearCache this)).1
      (original.run g (clearCache this)).2
      (fun k => k ∈ (original.lookups g (clearCache this)).map Prod.fst)
      (fun k hk => (o2 k hk).elim False.elim id)
    constructor
    · intro k _ e he
      simp only [HostCode.lookups, CIMM_add, List.find?_append] at he
      cases h1 : (original.lookups g (clearCache this)).find? (fun e => decide (e.1 = k)) with
      | some e1 =>
        rw [h1] at he
        simp only [Option.or_some, Option.some.injEq] at he
        rw [← he]
        exact o1 k (fun h => h) e1 h1
      | none =>
        rw [h1] at he
        simp only [Option.none_or] at he
        refine n1 k ?_ e he
        intro hmem
        obtain ⟨x, hx, hxk⟩ := List.mem_map.1 hmem
        have := List.find?_eq_none.1 h1 x hx
        simp [hxk] at this
    · intro k hk
      simp only [HostCode.run, CIMM_add] at hk
      simp only [HostCode.lookups, CIMM_add, List.map_append, List.mem_append]
      exact Or.inr (n2 k hk)
  | callRemove original next iho ihn =>
    intro this S _
    obtain ⟨o1, o2⟩ := iho (clearCache this) (fun _ => False)
      (fun k hk => by rw [servedFromCache_clearCache] at hk; cases hk)
    obtain ⟨n1, n2⟩ := ihn (original.run g (clearCache this)).1
      (original.run g (clearCache this)).2
      (fun k => k ∈ (original.lookups g (clearCache this)).map Prod.fst)
      (fun k hk => (o2 k hk).elim False.elim id)
    constructor
    · intro k _ e he
      simp only [HostCode.lookups, CIMM_remove, List.find?_append] at he
      cases h1 : (original.lookups g (clearCache this)).find? (fun e => decide (e.1 = k)) with
      | some e1 =>
        rw [h1] at he
        simp only [Option.or_some, Option.some.injEq] at he
        rw [← he]
        exact o1 k (fun h => h) e1 h1
      | none =>
        rw [h1] at he
        simp only [Option.none_or] at he
        refine n1 k ?_ e he
        intro hmem
        obtain ⟨x, hx, hxk⟩ := List.mem_map.1 hmem
        have := List.find?_eq_none.1 h1 x hx
        simp [hxk] at this
    · intro k hk
      simp only [HostCode.run, CIMM_remove] at hk
      simp only [HostCode.lookups, CIMM_remove, List.map_append, List.mem_append]
      exact Or.inr (n2 k hk)

end LookupLemmas

/-- C14: a hooked `add` or `remove` on an instance with an attached cache invokes the
original on the instance with the cache already cleared; among the nested `getByClass` calls
that the original makes while it runs, the first one for each key is not served from the
cache, and a call that is not served from the cache returns what the original `getByClass`
returns. -/
theorem mutation_clears_before_original {σ K V E R : Type} [DecidableEq K] [Inhabited V]
    (g : K → σ → Except E V × σ) (body : HostCode σ K V E R) (h : σ) (m : JSMap K V) :
    (∀ (original : Instance σ K V → Except E R × Instance σ K V),
        CIMM_add original { host := h, cache := some m }
            = original { host := h, cache := some [] }
          ∧ CIMM_remove original { host := h, cache := some m }
            = original { host := h, cache := some [] })
      ∧ (∀ k e, (body.lookups g { host := h, cache := some [] }).find?
            (fun e => decide (e.1 = k)) = some e → e.2 = false)
      ∧ (∀ (this : Instance σ K V) (k : K), servedFromCache this k = false →
          (CIMM_getByClass g this k).1 = (g k this.host).1) := by
  refine ⟨fun original => ⟨rfl, rfl⟩, ?_, fun this k hk => getByClass_delegates g this k hk⟩
  intro k e he
  exact (lookups_first_miss g body { host := h, cache := some [] } (fun _ => False)
    (fun k hk => by simp [servedFromCache, JSMap.has, JSMap.find] at hk)).1 k (fun hf => hf) e he

/-- Witness for C14: an original `add` that looks up class 0 twice, appends, and looks
up class 0 again, on an instance whose cache holds class 0: the first lookup is a miss. -/
theorem mutation_clears_before_original_witness :
    ((sampleLookingAdd 2).lookups sampleHost.getByClass
          { host := [4], cache := some [] }).find? (fun e => decide (e.1 = 0))
        = some (0, false)
      ∧ ((0 : Nat), false).2 = false :=
  ⟨rfl, (mutation_clears_before_original sampleHost.getByClass (sampleLookingAdd 2) [4]
    [(0, [9])]).2.1 0 (0, false) rfl⟩

/-- The nested lookups of the sample `add`, and the hooked `add` on a cache that already
holds class 0: the entry from before the mutation is gone. -/
theorem lookups_sample :
    (sampleLookingAdd 2).lookups sampleHost.getByClass { host := [4], cache := some [] }
        = [(0, false), (0, true), (0, true)]
      ∧ CIMM_add (fun t => (sampleLookingAdd 2).run sampleHost.getByClass t)
          { host := [4], cache := some [(0, [9])] }
        = (.ok true, { host := [4, 2], cache := some [(0, [4])] }) :=
  ⟨rfl, rfl⟩

/-- C15: when the hooked constructor returns normally, the instance has an attached, empty
cache, whatever the original constructor did while it ran, and the first hooked `getByClass`
for any key calls the original. -/
theorem constructor_attaches_empty_cache {σ K V E R : Type} [DecidableEq K] [Inhabited V]
    (original : Instance σ K V → Except E R × Instance σ K V) (this this' : Instance σ K V)
    (hret : CIMM_constructor original this = (.ok (), this')) :
    this'.cache = some [] ∧ this'.host = (original this).2.host
      ∧ ∀ (g : K → σ → Except E V × σ) (k : K),
          servedFromCache this' k = false
            ∧ (CIMM_getByClass g this' k).1 = (g k this'.host).1 := by
  have hstate : this' = { (original this).2 with cache := some [] } := by
    unfold CIMM_constructor at hret
    split at hret
    · cases hret
    · rename_i r t heq
      simp only [Prod.mk.injEq, true_and] at hret
      rw [← hret, heq]
  have hcache : this'.cache = some [] := by rw [hstate]
  refine ⟨hcache, by rw [hstate], fun g k => ?_⟩
  have hmiss : servedFromCache this' k = false := by
    simp [servedFromCache, hcache, JSMap.has, JSMap.find]
  exact ⟨hmiss, getByClass_delegates g this' k hmiss⟩

/-- Witness for C15: a constructor whose original adds an element and looks up class 1,
run on an instance that holds a cache entry. -/
theorem constructor_attaches_empty_cache_witness :
    CIMM_constructor (fun t => sampleBusyConstructor.run sampleHost.getByClass t)
        { host := [], cache := some [(0, [])] }
        = (.ok (), { host := [1], cache := some [] })
      ∧ ({ host := [1], cache := some [] } : Instance (List Nat) Nat (List Nat)).cache
        = some [] :=
  ⟨rfl, (constructor_attaches_empty_cache
    (fun t => sampleBusyConstructor.run sampleHost.getByClass t)
    { host := [], cache := some [(0, [])] } { host := [1], cache := some [] } rfl).1⟩

/-- The original constructor of the sample alone leaves the entry of its nested lookup in
the cache; the hooked constructor replaces the cache by an empty one. -/
theorem constructor_sample :
    sampleBusyConstructor.run sampleHost.getByClass { host := [], cache := some [(0, [])] }
        = (.ok true, { host := [1], cache := some [(1, [1])] })
      ∧ CIMM_constructor (fun t => sampleBusyConstructor.run sampleHost.getByClass t)
          { host := [], cache := none }
        = (.ok (), { host := [1], cache := some [] }) :=
  ⟨rfl, rfl⟩

/-! ## The hopper hook -/

/-- C18: a hooked update with `transferCooldown > 0` decrements it by one whatever the
original is (the original is not called); with `transferCooldown <= 0` it is the original
run once on the state with `transferCooldown = 8`. Starting from `transferCooldown = 0` with
an original that leaves `transferCooldown` unchanged, after `n` calls the cooldown is
`(9 - n % 9) % 9` and the original has run `(n + 8) / 9` times, so call `n + 1` runs the
original exactly when `n % 9 = 0`: on the calls 1, 10, 19, ... -/
theorem hopper_runs_every_ninth_call {σ : Type} (original : Hopper σ → Hopper σ) :
    (∀ this : Hopper σ, this.transferCooldown > 0 →
        ∀ other : Hopper σ → Hopper σ,
          updateHopper other this = { this with transferCooldown := this.transferCooldown - 1 })
      ∧ (∀ this : Hopper σ, this.transferCooldown ≤ 0 →
          updateHopper original this = original { this with transferCooldown := 8 })
      ∧ ((∀ t, (original t).transferCooldown = t.transferCooldown) →
          ∀ (h : σ) (n : Nat),
            (updateHopperTimes original n { transferCooldown := 0, host := h }).transferCooldown
                = (((9 - n % 9) % 9 : Nat) : Int)
              ∧ (updateHopperTimes original n { transferCooldown := 0, host := h }).host
                = (fun x => (original { transferCooldown := 8, host := x }).host)^[(n + 8) / 9] h
              ∧ ((updateHopperTimes original n
                    { transferCooldown := 0, host := h }).transferCooldown ≤ 0
                  ↔ n % 9 = 0)) := by
  refine ⟨?_, ?_, ?_⟩
  · intro this hpos other
    simp [updateHopper, hpos]
  · intro this hle
    have : ¬ this.transferCooldown > 0 := by omega
    simp [updateHopper, this]
  · intro hkeep h n
    have key : (updateHopperTimes original n { transferCooldown := 0, host := h }).transferCooldown
          = (((9 - n % 9) % 9 : Nat) : Int)
        ∧ (updateHopperTimes original n { transferCooldown := 0, host := h }).host
          = (fun x => (original { transferCooldown := 8, host := x }).host)^[(n + 8) / 9] h := by
      induction n with
      | zero => exact ⟨rfl, rfl⟩
      | succ n ih =>
        obtain ⟨hc, hh⟩ := ih
        simp only [updateHopperTimes]
        by_cases hpos : (updateHopperTimes original n
            { transferCooldown := 0, host := h }).transferCooldown > 0
        · have hmod : n % 9 ≠ 0 := by
            intro h0
            rw [hc, h0] at hpos
            simp at hpos
          have hdiv : (n + 1 + 8) / 9 = (n + 8) / 9 := by omega
          simp only [updateHopper, hpos, if_true, hdiv]
          refine ⟨?_, hh⟩
          rw [hc]
          omega
        · have hmod : n % 9 = 0 := by
            rw [hc] at hpos
            omega
          have hdiv : (n + 1 + 8) / 9 = (n + 8) / 9 + 1 := by omega
          simp only [updateHopper, hpos, if_false, hdiv, hkeep,
            Function.iterate_succ_apply']
          refine ⟨by omega, ?_⟩
          rw [hh]
    refine ⟨key.1, key.2, ?_⟩
    rw [key.1]
    omega

/-- Witness for C18: nineteen calls with an original that counts its runs: the original has
run three times and the cooldown is 8. -/
theorem hopper_runs_every_ninth_call_witness :
    (updateHopperTimes sampleOriginalUpdate 19
        { transferCooldown := 0, host := 0 }).transferCooldown
      = (((9 - 19 % 9) % 9 : Nat) : Int) :=
  ((hopper_runs_every_ninth_call sampleOriginalUpdate).2.2 (fun _ => rfl) 0 19).1

/-- The sample original on the first twenty calls: it has run once after calls 1 to 9,
twice after calls 10 to 18, three times after calls 19 and 20. -/
theorem hopper_sample_runs :
    (List.range 21).map
        (fun n => (updateHopperTimes sampleOriginalUpdate n
          { transferCooldown := 0, host := 0 }).host)
      = [0, 1, 1, 1, 1, 1, 1, 1, 1, 1, 2, 2, 2, 2, 2, 2, 2, 2, 2, 3, 3] := by
  decide

/-! ## The light hook -/

/-- C19: the hooked `getLightValue` returns 0, whatever the original is, for a block named
`tile.torch` with metadata 5 and for a block named `tile.repeater` or `tile.comparator`
whose metadata has bit 8 set; in every other case it returns the value of the original for
that state. -/
theorem light_disabled_for_redstone {σ : Type} (original : BlockState σ → Int)
    (state : BlockState σ) :
    ((state.unlocalizedName = "tile.torch".toList ∧ state.metadata = 5)
        ∨ ((state.unlocalizedName = "tile.repeater".toList
            ∨ state.unlocalizedName = "tile.comparator".toList)
          ∧ state.metadata &&& 8 ≠ 0) →
        getLightValue original state = 0)
      ∧ (¬ ((state.unlocalizedName = "tile.torch".toList ∧ state.metadata = 5)
          ∨ ((state.unlocalizedName = "tile.repeater".toList
              ∨ state.unlocalizedName = "tile.comparator".toList)
            ∧ state.metadata &&& 8 ≠ 0)) →
        getLightValue original state = original state) := by
  have hr : "tile.repeater".toList ≠ "tile.torch".toList := by decide
  have hc : "tile.comparator".toList ≠ "tile.torch".toList := by decide
  constructor
  · rintro (⟨hn, hm⟩ | ⟨hn | hn, hm⟩)
    · simp [getLightValue, hn, hm]
    · simp [getLightValue, hn, hm, hr]
    · simp [getLightValue, hn, hm, hc]
  · intro hnot
    simp only [not_or, not_and] at hnot
    obtain ⟨h1, h2⟩ := hnot
    unfold getLightValue
    simp only []
    split_ifs with ha hb
    · exfalso
      rcases hb with ⟨hn, hm⟩ | ⟨hn, hm⟩
      · exact h1 hn hm
      · rcases ha with ha | ha | ha
        · exact hn ha
        · exact h2 (Or.inl ha) hm
        · exact h2 (Or.inr ha) hm
    · rfl
    · rfl

/-- Witness for C19: a lit repeater (metadata 9) and an unlit one (metadata 1). -/
theorem light_disabled_for_redstone_witness :
    getLightValue sampleOriginalLight
        { unlocalizedName := "tile.repeater".toList, metadata := 9, host := () } = 0 :=
  (light_disabled_for_redstone sampleOriginalLight
    { unlocalizedName := "tile.repeater".toList, metadata := 9, host := () }).1
    (Or.inr ⟨Or.inl rfl, by decide⟩)

/-- The hooked `getLightValue` on sample states, with an original that returns 15. -/
theorem light_samples :
    getLightValue sampleOriginalLight ⟨"tile.torch".toList, 5, ()⟩ = 0
      ∧ getLightValue sampleOriginalLight ⟨"tile.torch".toList, 13, ()⟩ = 15
      ∧ getLightValue sampleOriginalLight ⟨"tile.comparator".toList, 8, ()⟩ = 0
      ∧ getLightValue sampleOriginalLight ⟨"tile.repeater".toList, 1, ()⟩ = 15
      ∧ getLightValue sampleOriginalLight ⟨"tile.stone".toList, 13, ()⟩ = 15 := by
  decide

end FoamFix
